import Mathlib

/-!
Verification development for the MCP tool-orchestration engine
(`src/core/engine.py` and `src/core/mcp_stdio.py`).

The Python values that flow through the engine (tool arguments, JSON-RPC
envelopes, parsed tool results) are modelled by the inductive type `Json`
below.  `json.dumps(·, ensure_ascii=False)` is modelled by `dumps`,
`json.loads` by `loads` (restricted to the int-numbered fragment: float,
NaN and Infinity literals are outside the model), and Python `str()` by
`pyStr`.  The conversation loop `ChatEngine.chatTurn` is modelled by
`chatTurn` below, with the Anthropic backend abstracted as a function from
the accumulated message list to one of the four outcomes the code
distinguishes (success, RateLimitError, APIStatusError, other exception),
and each MCP transport abstracted as a function from tool name and
arguments to a raw result envelope or a raised-exception message.
-/

/-- A Python value produced by `json.loads` / fed to `json.dumps`:
`None`, `bool`, `int`, `str`, `list`, `dict` (dicts keep insertion order;
numbers are restricted to `int`, floats are outside the model). -/
inductive Json where
  | null
  | bool (b : Bool)
  | num (n : Int)
  | str (s : String)
  | arr (items : List Json)
  | obj (members : List (String × Json))

/-- Python dict lookup `d.get(k)`.  Dicts built by `dictInsert` have unique
keys, so first-match lookup models Python exactly. -/
def dictGet {α : Type} : List (String × α) → String → Option α
  | [], _ => none
  | (k0, v0) :: rest, k => if k0 = k then some v0 else dictGet rest k

/-- Python dict assignment `d[k] = v`: overwrite in place if the key exists
(keeping its original position), else append. -/
def dictInsert {α : Type} : List (String × α) → String → α → List (String × α)
  | [], k, v => [(k, v)]
  | (k0, v0) :: rest, k, v =>
    if k0 = k then (k0, v) :: rest else (k0, v0) :: dictInsert rest k v

/-- Python truthiness of a JSON-shaped value (`bool(x)`): `None`, `False`,
`0`, `""`, `[]` and `{}` are falsy, everything else truthy. -/
def jsonTruthy : Json → Bool
  | .null => false
  | .bool b => b
  | .num n => n != 0
  | .str s => s != ""
  | .arr items => !items.isEmpty
  | .obj members => !members.isEmpty

/-- Python `d.get(k, default)` on a parsed-JSON value.  In the engine the
receivers are always dicts (JSON-RPC envelopes); on a non-dict the model
yields the default where Python would raise `AttributeError` inside the
same caught context. -/
def jGetD (j : Json) (k : String) (default : Json) : Json :=
  match j with
  | .obj members => (dictGet members k).getD default
  | _ => default

/-- Decimal digit character for `d < 10` (as produced by `int.__repr__`). -/
def digitChar : Nat → Char
  | 0 => '0' | 1 => '1' | 2 => '2' | 3 => '3' | 4 => '4'
  | 5 => '5' | 6 => '6' | 7 => '7' | 8 => '8' | _ => '9'

/-- Lowercase hexadecimal digit character for `d < 16` (as in the `\u00xx`
escapes emitted by `json.dumps`). -/
def hexDigitChar : Nat → Char
  | 0 => '0' | 1 => '1' | 2 => '2' | 3 => '3' | 4 => '4'
  | 5 => '5' | 6 => '6' | 7 => '7' | 8 => '8' | 9 => '9'
  | 10 => 'a' | 11 => 'b' | 12 => 'c' | 13 => 'd' | 14 => 'e' | _ => 'f'

/-- Decimal digit characters of `n`, most significant first:
`Nat.digits` is least-significant-first, so reverse its digit characters. -/
def natChars (n : Nat) : List Char :=
  if n = 0 then ['0'] else ((Nat.digits 10 n).map digitChar).reverse

/-- Characters of `int.__repr__`: optional minus sign, then decimal digits. -/
def intChars (i : Int) : List Char :=
  if i < 0 then '-' :: natChars i.natAbs else natChars i.natAbs

/-- One string character as escaped by `json.dumps(·, ensure_ascii=False)`:
quote, backslash and the named control escapes get two-character escapes,
remaining control characters become `\u00xx`, everything else is copied. -/
def escChar (c : Char) : List Char :=
  if c = '"' then ['\\', '"']
  else if c = '\\' then ['\\', '\\']
  else if c = '\n' then ['\\', 'n']
  else if c = '\r' then ['\\', 'r']
  else if c = '\t' then ['\\', 't']
  else if c = Char.ofNat 8 then ['\\', 'b']
  else if c = Char.ofNat 12 then ['\\', 'f']
  else if c.toNat < 0x20 then
    ['\\', 'u', '0', '0', hexDigitChar (c.toNat / 16), hexDigitChar (c.toNat % 16)]
  else [c]

/-- Characters of a `json.dumps` string literal: quoted, body escaped. -/
def strChars (s : String) : List Char :=
  '"' :: (s.data.flatMap escChar ++ ['"'])

mutual
/-- Characters produced by `json.dumps(v, ensure_ascii=False)` with the
default separators `", "` and `": "` (the call in `ChatEngine.chatTurn`). -/
def printJson : Json → List Char
  | .null => 'n' :: ['u', 'l', 'l']
  | .bool true => 't' :: ['r', 'u', 'e']
  | .bool false => 'f' :: ['a', 'l', 's', 'e']
  | .num i => intChars i
  | .str s => strChars s
  | .arr [] => ['[', ']']
  | .arr (x :: xs) => '[' :: (printItems x xs ++ [']'])
  | .obj [] => ['{', '}']
  | .obj (kv :: kvs) => '{' :: (printFields kv kvs ++ ['}'])
termination_by v => sizeOf v
decreasing_by all_goals simp_wf <;> omega

/-- Comma-separated rendering of a nonempty list of array items. -/
def printItems : Json → List Json → List Char
  | x, [] => printJson x
  | x, y :: ys => printJson x ++ ',' :: ' ' :: printItems y ys
termination_by x xs => 1 + sizeOf x + sizeOf xs
decreasing_by all_goals simp_wf <;> omega

/-- Comma-separated rendering of a nonempty list of object members. -/
def printFields : String × Json → List (String × Json) → List Char
  | (k, v), [] => strChars k ++ ':' :: ' ' :: printJson v
  | (k, v), f :: fs => (strChars k ++ ':' :: ' ' :: printJson v) ++ ',' :: ' ' :: printFields f fs
termination_by f fs => 1 + sizeOf f + sizeOf fs
decreasing_by all_goals simp_wf <;> omega
end

/-- The `json.dumps(v, ensure_ascii=False)` call used to serialize tool
results for the `tool_result` blocks in `ChatEngine.chatTurn`. -/
def dumps (v : Json) : String :=
  String.mk (printJson v)

mutual
/-- Python `str(x)` on a JSON-shaped value, as used by the f-strings and the
`str(args[key])` conversion in `src/core/engine.py`.  Containers render via
their `repr`. -/
def pyStr : Json → String
  | .null => "None"
  | .bool true => "True"
  | .bool false => "False"
  | .num i => String.mk (intChars i)
  | .str s => s
  | .arr items => pyRepr (.arr items)
  | .obj members => pyRepr (.obj members)
termination_by v => 1 + sizeOf v
decreasing_by all_goals simp_wf <;> omega

/-- Python `repr(x)` on a JSON-shaped value (best-effort model of the
runtime: strings single-quoted with minimal escaping; only used for the
display of offending values inside error messages, where no claim depends
on the exact repr of exotic characters). -/
def pyRepr : Json → String
  | .null => "None"
  | .bool true => "True"
  | .bool false => "False"
  | .num i => String.mk (intChars i)
  | .str s => "\x27" ++ s ++ "\x27"
  | .arr [] => "[]"
  | .arr (x :: xs) => "[" ++ pyReprItems x xs ++ "]"
  | .obj [] => "\x7b\x7d"
  | .obj (kv :: kvs) => "\x7b" ++ pyReprFields kv kvs ++ "\x7d"
termination_by v => sizeOf v
decreasing_by all_goals simp_wf <;> omega

/-- Comma-separated `repr` of a nonempty list of list elements. -/
def pyReprItems : Json → List Json → String
  | x, [] => pyRepr x
  | x, y :: ys => pyRepr x ++ ", " ++ pyReprItems y ys
termination_by x xs => 1 + sizeOf x + sizeOf xs
decreasing_by all_goals simp_wf <;> omega

/-- Comma-separated `repr` of a nonempty list of dict entries. -/
def pyReprFields : String × Json → List (String × Json) → String
  | (k, v), [] => "\x27" ++ k ++ "\x27: " ++ pyRepr v
  | (k, v), f :: fs => ("\x27" ++ k ++ "\x27: " ++ pyRepr v) ++ ", " ++ pyReprFields f fs
termination_by f fs => 1 + sizeOf f + sizeOf fs
decreasing_by all_goals simp_wf <;> omega
end

/-- The whitespace characters skipped by `json.loads` between tokens. -/
def isWsChar (c : Char) : Bool :=
  c = ' ' || c = '\t' || c = '\n' || c = '\r'

/-- Drop leading JSON whitespace. -/
def skipWs : List Char → List Char
  | [] => []
  | c :: cs => if isWsChar c then skipWs cs else c :: cs

/-- Value of a decimal digit character, if it is one. -/
def digVal? (c : Char) : Option Nat :=
  if '0' ≤ c ∧ c ≤ '9' then some (c.toNat - '0'.toNat) else none

/-- Value of a hexadecimal digit character, if it is one. -/
def hexVal? (c : Char) : Option Nat :=
  if '0' ≤ c ∧ c ≤ '9' then some (c.toNat - '0'.toNat)
  else if 'a' ≤ c ∧ c ≤ 'f' then some (c.toNat - 'a'.toNat + 10)
  else if 'A' ≤ c ∧ c ≤ 'F' then some (c.toNat - 'A'.toNat + 10)
  else none

/-- Greedily consume decimal digits, extending the accumulator. -/
def readDigits : Nat → List Char → Nat × List Char
  | acc, [] => (acc, [])
  | acc, c :: cs =>
    match digVal? c with
    | some d => readDigits (acc * 10 + d) cs
    | none => (acc, c :: cs)

/-- The JSON integer grammar `0|[1-9][0-9]*`: a leading `0` is a complete
number on its own (as in Python's `NUMBER_RE`), otherwise digits are
consumed greedily. -/
def readNat? : List Char → Option (Nat × List Char)
  | [] => none
  | c :: cs =>
    if c = '0' then some (0, cs)
    else
      match digVal? c with
      | some d => some (readDigits d cs)
      | none => none

/-- An unsigned JSON number restricted to the integer fragment: a fraction
or exponent continuation (which Python would parse as a float) is outside
the model and rejected. -/
def readNum? (cs : List Char) : Option (Nat × List Char) :=
  match readNat? cs with
  | none => none
  | some (n, rest) =>
    match rest with
    | [] => some (n, rest)
    | c :: _ => if c = '.' ∨ c = 'e' ∨ c = 'E' then none else some (n, rest)

/-- The single-character escapes accepted by `json.loads` after a
backslash (everything else, apart from `\u`, is an error). -/
def unescChar? (e : Char) : Option Char :=
  if e = '"' then some '"'
  else if e = '\\' then some '\\'
  else if e = '/' then some '/'
  else if e = 'b' then some (Char.ofNat 8)
  else if e = 'f' then some (Char.ofNat 12)
  else if e = 'n' then some '\n'
  else if e = 'r' then some '\r'
  else if e = 't' then some '\t'
  else none

mutual
/-- Body of a JSON string after the opening quote, as scanned by
`json.loads` in strict mode: raw control characters are rejected, the
named escapes and `\uXXXX` are decoded (surrogate code points, which Lean
`Char` cannot carry, are outside the model). -/
def readStr : List Char → List Char → Option (String × List Char)
  | _, [] => none
  | acc, c :: cs =>
    if c = '"' then some (String.mk acc.reverse, cs)
    else if c = '\\' then readEsc acc cs
    else if c.toNat < 0x20 then none
    else readStr (c :: acc) cs

/-- The character after a backslash: `u` starts a hex escape, the named
escapes decode through the table, anything else is an error. -/
def readEsc : List Char → List Char → Option (String × List Char)
  | _, [] => none
  | acc, e :: cs =>
    if e = 'u' then readHex acc cs
    else
      match unescChar? e with
      | some u => readStr (u :: acc) cs
      | none => none

/-- Four hex digits after `\u`, rejected in the surrogate range. -/
def readHex : List Char → List Char → Option (String × List Char)
  | acc, h1 :: h2 :: h3 :: h4 :: cs =>
    match hexVal? h1, hexVal? h2, hexVal? h3, hexVal? h4 with
    | some a, some b, some c2, some d =>
      let n := ((a * 16 + b) * 16 + c2) * 16 + d
      if 0xD800 ≤ n ∧ n ≤ 0xDFFF then none
      else readStr (Char.ofNat n :: acc) cs
    | _, _, _, _ => none
  | _, _ => none
end

/-- Collapse a parsed member list the way `dict(pairs)` does in Python's
JSON decoder: position of the first occurrence of a key, value of the last. -/
def pairsToDict (pairs : List (String × Json)) : List (String × Json) :=
  pairs.foldl (fun d kv => dictInsert d kv.1 kv.2) []

/-- The tail of the `null` literal after its leading `n`. -/
def litNull? : List Char → Option (Json × List Char)
  | 'u' :: 'l' :: 'l' :: rest => some (.null, rest)
  | _ => none

/-- The tail of the `true` literal after its leading `t`. -/
def litTrue? : List Char → Option (Json × List Char)
  | 'r' :: 'u' :: 'e' :: rest => some (.bool true, rest)
  | _ => none

/-- The tail of the `false` literal after its leading `f`. -/
def litFalse? : List Char → Option (Json × List Char)
  | 'a' :: 'l' :: 's' :: 'e' :: rest => some (.bool false, rest)
  | _ => none

mutual
/-- One JSON value at the head of the input (already positioned on a
non-space character), following Python's scanner; recursion is on explicit
fuel, with one unit consumed per nested value, so `input length + 1` always
suffices. -/
def parseVal : Nat → List Char → Option (Json × List Char)
  | 0, _ => none
  | _ + 1, [] => none
  | fuel + 1, c :: cs =>
    if c = 'n' then litNull? cs
    else if c = 't' then litTrue? cs
    else if c = 'f' then litFalse? cs
    else if c = '"' then
      (readStr [] cs).map (fun p => (Json.str p.1, p.2))
    else if c = '[' then
      match skipWs cs with
      | ']' :: rest => some (.arr [], rest)
      | cs1 => (parseItems fuel cs1).map (fun p => (Json.arr p.1, p.2))
    else if c = '{' then
      match skipWs cs with
      | '}' :: rest => some (.obj [], rest)
      | cs1 => (parseFields fuel cs1).map (fun p => (Json.obj (pairsToDict p.1), p.2))
    else if c = '-' then
      (readNum? cs).map (fun p => (Json.num (-(p.1 : Int)), p.2))
    else
      (readNum? (c :: cs)).map (fun p => (Json.num (p.1 : Int), p.2))

/-- One-or-more comma-separated array items up to the closing bracket
(the empty array is recognized in `parseVal`). -/
def parseItems : Nat → List Char → Option (List Json × List Char)
  | 0, _ => none
  | fuel + 1, cs =>
    match parseVal fuel cs with
    | none => none
    | some (v, rest) =>
      match skipWs rest with
      | ',' :: rest2 => (parseItems fuel (skipWs rest2)).map (fun p => (v :: p.1, p.2))
      | ']' :: rest2 => some ([v], rest2)
      | _ => none

/-- One-or-more comma-separated object members up to the closing brace
(the empty object is recognized in `parseVal`); keys must be string
literals. -/
def parseFields : Nat → List Char → Option (List (String × Json) × List Char)
  | 0, _ => none
  | fuel + 1, cs =>
    match cs with
    | '"' :: cs1 =>
      match readStr [] cs1 with
      | none => none
      | some (k, rest) =>
        match skipWs rest with
        | ':' :: rest2 =>
          match parseVal fuel (skipWs rest2) with
          | none => none
          | some (v, rest3) =>
            match skipWs rest3 with
            | ',' :: rest4 => (parseFields fuel (skipWs rest4)).map (fun p => ((k, v) :: p.1, p.2))
            | '}' :: rest4 => some ([(k, v)], rest4)
            | _ => none
        | _ => none
    | _ => none
end

/-- `json.loads` on the modelled fragment: parse one document, then require
that only whitespace remains. -/
def loads (s : String) : Option Json :=
  match parseVal (s.length + 1) (skipWs s.data) with
  | some (v, rest) => if skipWs rest = [] then some v else none
  | none => none

/-- Extraction of the first text block from an MCP `tools/call` envelope
(`prettyJsonFromMcpResult` in `src/core/mcp_stdio.py`): follows
`result.get("result", {}).get("content", [])`, takes the first element when
it is a nonempty list, and returns that element's `"text"` entry when the
element is a dict tagged `"type": "text"`; otherwise the empty string.  The
returned value is the Python value stored under `"text"` (a string in every
produced envelope). -/
def prettyJsonFromMcpResult (result : Json) : Json :=
  match jGetD (jGetD result "result" (.obj [])) "content" (.arr []) with
  | .arr (item :: _) =>
    match item with
    | .obj members =>
      match dictGet members "type" with
      | some (.str t) => if t = "text" then jGetD item "text" (.str "") else .str ""
      | _ => .str ""
    | _ => .str ""
  | _ => .str ""

/-- The invoker-side parse (`parseTextBlock` in `src/core/mcp_stdio.py`):
take the first text block and attempt `json.loads` on it, falling back to
the raw text when parsing fails (a non-string text value makes `json.loads`
raise `TypeError`, which the same `except` catches). -/
def parseTextBlock (result : Json) : Json :=
  match prettyJsonFromMcpResult result with
  | .str raw =>
    match loads raw with
    | some v => v
    | none => .str raw
  | other => other

/-- Python `s.startswith(pre)` (identical to `String.startsWith`, stated
on the character lists so that it evaluates structurally). -/
def strHasPre (s pre : String) : Bool :=
  pre.data.isPrefixOf s.data

/-- Python `path.split("/")` on the character list of the path. -/
def splitSlash (acc : List Char) : List Char → List String
  | [] => [String.mk acc.reverse]
  | c :: cs =>
    if c = '/' then String.mk acc.reverse :: splitSlash [] cs
    else splitSlash (c :: acc) cs

/-- Python `"/".join(comps)`. -/
def joinSlash : List String → String
  | [] => ""
  | [x] => x
  | x :: y :: ys => x ++ "/" ++ joinSlash (y :: ys)

/-- One step of the component loop in `posixpath.normpath`: empty and `"."`
components are dropped, `".."` pops the previous component unless the path
is relative and nothing precedes it, or the previous component is itself
`".."`.  The accumulator holds the kept components in reverse. -/
def npStep (initialSlashes : Nat) (acc : List String) (comp : String) : List String :=
  if comp = "" ∨ comp = "." then acc
  else if comp ≠ ".." ∨ (initialSlashes = 0 ∧ acc = []) ∨ acc.head? = some ".." then
    comp :: acc
  else if acc.isEmpty then acc
  else acc.tail

/-- `posixpath.normpath`: collapse repeated separators, resolve `.` and
`..` components, preserve the special double-slash root. -/
def normpath (path : String) : String :=
  if path = "" then "." else
  let initialSlashes : Nat :=
    if strHasPre path "//" ∧ ¬ strHasPre path "///" then 2
    else if strHasPre path "/" then 1
    else 0
  let comps := splitSlash [] path.data
  let newComps := (comps.foldl (npStep initialSlashes) []).reverse
  let joined := String.mk (List.replicate initialSlashes '/') ++ joinSlash newComps
  if joined = "" then "." else joined

/-- Python `a.endswith("/")`: the last character is a slash. -/
def endsWithSlash (a : String) : Bool :=
  a.data.getLast? = some '/'

/-- `posixpath.join` for the two-argument call inside `abspath`. -/
def posixJoin (a b : String) : String :=
  if strHasPre b "/" then b
  else if a = "" ∨ endsWithSlash a then a ++ b
  else a ++ "/" ++ b

/-- `os.path.abspath` on POSIX, with the process working directory as an
explicit parameter: relative paths are joined onto it, then normalized. -/
def abspath (cwd path : String) : String :=
  normpath (if strHasPre path "/" then path else posixJoin cwd path)

/-- `isPathAllowed` from `src/core/engine.py`: the path's absolute form
must equal a root's absolute form or extend it past a `/` separator
(`os.sep` on POSIX). -/
def isPathAllowed (cwd : String) (pathStr : String) (allowedRoots : List String) : Bool :=
  let ap := abspath cwd pathStr
  allowedRoots.any (fun root =>
    let base := abspath cwd root
    ap == base || strHasPre ap (base ++ "/"))

/-- The fixed list of path-bearing argument keys checked by
`sanitizeMcpArgs` in `src/core/engine.py`, in source order. -/
def pathKeys : List String :=
  ["xml_path", "logo_path", "out_path", "dir_xml", "out_dir"]

/-- The key loop of `sanitizeMcpArgs`: for each recognized key that is
present with a truthy value, check `isPathAllowed` on its `str()` form and
raise `ValueError` (modelled as `Except.error` with the exception text) on
the first violation. -/
def sanitizeLoop (cwd : String) (members : List (String × Json)) (allowedRoots : List String) :
    List String → Except String Unit
  | [] => .ok ()
  | key :: rest =>
    match dictGet members key with
    | some v =>
      if jsonTruthy v then
        if isPathAllowed cwd (pyStr v) allowedRoots then
          sanitizeLoop cwd members allowedRoots rest
        else
          .error ("Blocked path: " ++ pyStr v)
      else sanitizeLoop cwd members allowedRoots rest
    | none => sanitizeLoop cwd members allowedRoots rest

/-- `sanitizeMcpArgs` from `src/core/engine.py`: non-dict arguments
sanitize to `{}`; dict arguments are returned unchanged unless a
recognized path-bearing key holds a truthy, disallowed value, in which
case a `ValueError` with the offending value is raised. -/
def sanitizeMcpArgs (cwd : String) (args : Json) (allowedRoots : List String) :
    Except String Json :=
  match args with
  | .obj members =>
    match sanitizeLoop cwd members allowedRoots pathKeys with
    | .ok _ => .ok (.obj members)
    | .error e => .error e
  | _ => .ok (.obj [])

/-- Modelled from the spec (for the refinement comparison in C7): "for
every recognized path-bearing key present and non-empty in `args`, apply
`isAllowed`; on first violation, fail with `BlockedPath` carrying the
offending value.  Non-path arguments pass through unchanged.  Unknown
argument shapes (non-mapping input) sanitize to an empty argument set".
"Present and non-empty" is formalized as Python truthiness of the stored
value, and the first violation is selected by `List.find?` over the fixed
key list. -/
def sanitizeSpec (cwd : String) (args : Json) (allowedRoots : List String) :
    Except String Json :=
  match args with
  | .obj members =>
    match pathKeys.find? (fun key =>
        match dictGet members key with
        | some v => jsonTruthy v && !(isPathAllowed cwd (pyStr v) allowedRoots)
        | none => false) with
    | some key => .error ("Blocked path: " ++ pyStr ((dictGet members key).getD .null))
    | none => .ok (.obj members)
  | _ => .ok (.obj [])

/-- One MCP tool descriptor as reported by a transport's `tools/list`
(`{name, description, inputSchema}`). -/
structure ToolDescriptor where
  name : String
  description : String
  inputSchema : Json

/-- The merged tool sequence built by `ChatEngine.start`: every transport's
descriptors appended in configuration order (stdio clients first, then the
HTTP client, uniformly represented as a list of per-transport catalogs). -/
def mergeToolCatalog (transports : List (List ToolDescriptor)) : List ToolDescriptor :=
  transports.flatten

/-- The ownership map built by `ChatEngine.start`: iterate transports in
configuration order, assigning `self._toolIndex[name] = cli` for every
declared tool; `i` is the position of the transport being processed. -/
def buildIndex : Nat → List (List ToolDescriptor) → List (String × Nat) → List (String × Nat)
  | _, [], idx => idx
  | i, ts :: rest, idx =>
    buildIndex (i + 1) rest (ts.foldl (fun d t => dictInsert d t.name i) idx)

/-- The `_toolIndex` mapping after `start()`: tool name to the position of
the owning transport in configuration order. -/
def startToolIndex (transports : List (List ToolDescriptor)) : List (String × Nat) :=
  buildIndex 0 transports []

/-- `buildAnthropicTools` from `src/core/engine.py`: MCP descriptors
reshaped into Anthropic tool dicts reusing the JSON schema. -/
def buildAnthropicTools (toolsCatalog : List ToolDescriptor) : List Json :=
  toolsCatalog.map (fun t =>
    .obj [("name", .str t.name), ("description", .str t.description),
          ("input_schema", t.inputSchema)])

/-- Token usage counters extracted by `usageDict` from a successful
backend response. -/
structure Usage where
  input_tokens : Nat
  output_tokens : Nat
  cache_creation_input_tokens : Nat
  cache_read_input_tokens : Nat

/-- One typed content block of a backend response (`TextBlock`,
`ToolUseBlock`, `ToolResultBlock`); the engine probes `b.type` and reads
the matching attributes. -/
inductive RespBlock where
  | text (t : String)
  | toolUse (id : String) (name : String) (input : Json)
  | toolResult (toolUseId : String) (content : Json) (isError : Bool)

/-- Outcome of one `client.messages.create` call, as distinguished by the
`try/except` chain in `ChatEngine.chatTurn`: a successful response with
content blocks and usage, or one of `RateLimitError`, `APIStatusError`
(with its formatted `status_code`), or any other exception; error detail
strings model `str(e)`. -/
inductive ModelOutcome where
  | ok (blocks : List RespBlock) (usage : Usage)
  | rateLimited (detail : String)
  | apiStatus (code : String) (detail : String)
  | otherError (detail : String)

/-- Content of one conversation message: either a plain string (user text
and the steering instruction) or a list of content-block param dicts. -/
inductive MsgContent where
  | text (s : String)
  | params (blocks : List Json)

/-- One message of the conversation history sent to the backend. -/
structure Message where
  role : String
  content : MsgContent

/-- One record appended to the router trace: the unconditional error entry
of the `except` branches (`{"decision": "error", "error": tag, "detail":
str(e)[:200]}`) or the per-hop record appended when `routerDebug` is set
(`{"decision": ..., "blocks": ..., "usage": ...}`). -/
inductive TraceEntry where
  | errorHop (error : String) (detail : String)
  | hop (decision : String) (blocks : List Json) (usage : Usage)

/-- One entry of the tool-call ledger: `{"tool", "arguments", "result"}` on
success, `{"tool", "arguments", "error"}` on failure. -/
inductive ToolCallRecord where
  | success (tool : String) (arguments : Json) (result : Json)
  | failure (tool : String) (arguments : Json) (error : String)

/-- The value returned by `ChatEngine.chatTurn`:
`{"finalText": ..., "router": {"trace": ...}, "tools": {"calls": ...}}`,
with the two singleton wrappers flattened. -/
structure TurnResult where
  finalText : String
  trace : List TraceEntry
  calls : List ToolCallRecord

/-- The engine state and collaborators relevant to a conversation turn:
the ownership map built at start, the transports' `callTool` behaviour
(indexed by transport position; `Except.error` models a raised exception's
`str(e)`), the path allow-list, the diagnostics flag, and the process
working directory consumed by `os.path.abspath`. -/
structure Engine where
  toolIndex : List (String × Nat)
  callToolFn : Nat → String → Json → Except String Json
  allowedRoots : List String
  routerDebug : Bool
  cwd : String

/-- The fixed apology returned on `RateLimitError`. -/
def rateLimitMessage : String :=
  "⚠️ The request exceeded a limit (tokens/minute or size). Ask something more specific or reduce the context."

/-- The apology returned on `APIStatusError`, parametrized by the
formatted status code. -/
def apiStatusMessage (code : String) : String :=
  "⚠️ The model could not respond (status " ++ code ++ "). Please try again later."

/-- The apology returned on any other backend exception. -/
def unknownErrorMessage : String :=
  "⚠️ There was a problem generating the response. Please try again."

/-- The placeholder substituted for an empty final answer and returned on
hop exhaustion. -/
def noAnswerText : String := "(no answer)"

/-- `serializeBlocks` from `src/core/engine.py`: typed blocks to
JSON-serializable summaries (text, tool-use with `input or {}`, and
tool-result blocks). -/
def serializeBlocks (blocks : List RespBlock) : List Json :=
  blocks.map (fun b =>
    match b with
    | .text t => .obj [("type", .str "text"), ("text", .str t)]
    | .toolUse id name input =>
      .obj [("type", .str "tool_use"), ("id", .str id), ("name", .str name),
            ("input", if jsonTruthy input then input else .obj [])]
    | .toolResult toolUseId content isError =>
      .obj [("type", .str "tool_result"), ("tool_use_id", .str toolUseId),
            ("content", content), ("is_error", .bool isError)])

/-- `contentBlocksToParams` from `src/core/engine.py`: only text and
tool-use blocks are forwarded back to the Messages API. -/
def contentBlocksToParams (blocks : List RespBlock) : List Json :=
  blocks.filterMap (fun b =>
    match b with
    | .text t => some (.obj [("type", .str "text"), ("text", .str t)])
    | .toolUse id name input =>
      some (.obj [("type", .str "tool_use"), ("id", .str id), ("name", .str name),
                  ("input", if jsonTruthy input then input else .obj [])])
    | .toolResult _ _ _ => none)

/-- The finalization of a successful no-tool response: join the nonempty
text blocks with newlines, strip, and substitute the placeholder for an
empty result. -/
def finalTextFromBlocks (blocks : List RespBlock) : String :=
  let texts := blocks.filterMap (fun b => match b with | .text t => some t | _ => none)
  let joined := (String.intercalate "\n" (texts.filter (fun t => t ≠ ""))).trim
  if joined = "" then noAnswerText else joined

/-- The tool-use blocks of a response, with the attributes the loop reads
(`id`, `name`, `input`). -/
def toolUsesOf (blocks : List RespBlock) : List (String × String × Json) :=
  blocks.filterMap (fun b =>
    match b with
    | .toolUse id name input => some (id, name, input)
    | _ => none)

/-- The `tool_result` param dict built for a failed tool invocation:
`{"ok": false, "error": str(e)}` serialized as text, flagged as an error
block. -/
def errorResultParam (toolUseId : String) (e : String) : Json :=
  .obj [("type", .str "tool_result"), ("tool_use_id", .str toolUseId),
        ("content", .arr [.obj [("type", .str "text"),
          ("text", .str (dumps (.obj [("ok", .bool false), ("error", .str e)])))]]),
        ("is_error", .bool true)]

/-- One tool invocation inside the hop loop of `ChatEngine.chatTurn`
(the body of `for tu in toolUses`): sanitize, resolve the owning
transport, call it and parse the first text block; any step's exception is
converted into an error `tool_result` block and a ledger entry carrying
the original arguments, while success records the sanitized arguments and
parsed result.  Returns the `tool_result` param dict and the ledger
entry. -/
def execToolUse (eng : Engine) (toolUseId : String) (toolName : String) (input : Json) :
    Json × ToolCallRecord :=
  let toolArgs := if jsonTruthy input then input else .obj []
  match sanitizeMcpArgs eng.cwd toolArgs eng.allowedRoots with
  | .error e => (errorResultParam toolUseId e, .failure toolName toolArgs e)
  | .ok safeArgs =>
    match dictGet eng.toolIndex toolName with
    | none =>
      let e := "Unknown tool: " ++ toolName
      (errorResultParam toolUseId e, .failure toolName toolArgs e)
    | some cli =>
      match eng.callToolFn cli toolName safeArgs with
      | .error e => (errorResultParam toolUseId e, .failure toolName toolArgs e)
      | .ok rawResp =>
        let parsed := parseTextBlock rawResp
        (.obj [("type", .str "tool_result"), ("tool_use_id", .str toolUseId),
               ("content", .arr [.obj [("type", .str "text"), ("text", .str (dumps parsed))]])],
         .success toolName safeArgs parsed)

/-- The steering instruction appended after every tool hop. -/
def steeringText : String :=
  "Return one concise answer in the user's language; do not show raw JSON."

/-- The bounded hop loop of `ChatEngine.chatTurn` (`for _ in
range(maxHops)`), with the backend abstracted as a function of the
accumulated message list.  Backend failures return immediately with the
matching apology, an unconditionally appended error trace entry, and an
empty calls list; successful hops append a trace record only when
`routerDebug` is set, then either execute every requested tool and loop,
or finalize with the aggregated text.  Exhausting `fuel` returns the
placeholder with whatever trace and ledger accumulated. -/
def chatTurnLoop (eng : Engine) (backend : List Message → ModelOutcome) :
    Nat → List Message → List TraceEntry → List ToolCallRecord → TurnResult
  | 0, _, trace, toolCalls => ⟨noAnswerText, trace, toolCalls⟩
  | fuel + 1, messages, trace, toolCalls =>
    match backend messages with
    | .rateLimited detail =>
      ⟨rateLimitMessage, trace ++ [.errorHop "rate_limit" (detail.take 200)], []⟩
    | .apiStatus code detail =>
      ⟨apiStatusMessage code, trace ++ [.errorHop "api_status" (detail.take 200)], []⟩
    | .otherError detail =>
      ⟨unknownErrorMessage, trace ++ [.errorHop "unknown" (detail.take 200)], []⟩
    | .ok blocks usage =>
      let toolUses := toolUsesOf blocks
      let trace1 :=
        if eng.routerDebug then
          trace ++ [.hop (if toolUses.isEmpty then "no_tool" else "tool_use")
                        (serializeBlocks blocks) usage]
        else trace
      if toolUses.isEmpty then
        ⟨finalTextFromBlocks blocks, trace1, toolCalls⟩
      else
        let executed := toolUses.map (fun tu => execToolUse eng tu.1 tu.2.1 tu.2.2)
        let messages1 := messages ++
          [⟨"assistant", .params (contentBlocksToParams blocks)⟩,
           ⟨"user", .params (executed.map (fun r => r.1))⟩,
           ⟨"user", .text steeringText⟩]
        chatTurnLoop eng backend fuel messages1 trace1 (toolCalls ++ executed.map (fun r => r.2))

/-- `ChatEngine.chatTurn`: seed the message list with the history plus the
new user message and run the hop loop. -/
def chatTurn (eng : Engine) (backend : List Message → ModelOutcome) (history : List Message)
    (userText : String) (maxHops : Nat) : TurnResult :=
  chatTurnLoop eng backend maxHops (history ++ [⟨"user", .text userText⟩]) [] []

/-- `ChatEngine.callTool`, the manual invocation path: resolve the owning
transport first (raising `ValueError("Unknown tool: ...")` when absent),
then sanitize `args or {}`, call the transport and parse the first text
block.  The second component logs every transport invocation performed
(transport position, tool name, sanitized arguments), so that
non-invocation is expressible. -/
def callToolManual (eng : Engine) (name : String) (args : Json) :
    Except String Json × List (Nat × String × Json) :=
  match dictGet eng.toolIndex name with
  | none => (.error ("Unknown tool: " ++ name), [])
  | some cli =>
    match sanitizeMcpArgs eng.cwd (if jsonTruthy args then args else .obj []) eng.allowedRoots with
    | .error e => (.error e, [])
    | .ok safe =>
      match eng.callToolFn cli name safe with
      | .error e => (.error e, [(cli, name, safe)])
      | .ok raw => (.ok (parseTextBlock raw), [(cli, name, safe)])

/-- Zero usage counters, for concrete backend fixtures. -/
def usageZero : Usage := ⟨0, 0, 0, 0⟩

/-- A concrete engine with diagnostics disabled and an empty tool index. -/
def engFalse : Engine :=
  ⟨[], fun _ _ _ => .error "down", ["data/xml", "data/out", "data/logos"], false, "/app"⟩

/-- A concrete engine with diagnostics enabled and an empty tool index. -/
def engTrue : Engine :=
  ⟨[], fun _ _ _ => .error "down", ["data/xml", "data/out", "data/logos"], true, "/app"⟩

/-- A backend that is rate-limited on every call. -/
def backendRL : List Message → ModelOutcome :=
  fun _ => .rateLimited "rate limit detail"

/-- A backend that answers with plain text and no tool request. -/
def backendNoTool : List Message → ModelOutcome :=
  fun _ => .ok [RespBlock.text "hola"] usageZero

/-- A backend that requests one tool on every call. -/
def backendTools : List Message → ModelOutcome :=
  fun _ => .ok [RespBlock.toolUse "tu1" "felValidate" (Json.obj [])] usageZero

/-- Case analysis on the final text of the hop loop: every run ends with
the placeholder, one of the three apologies, or the finalization of some
successful backend response. -/
theorem chatTurnLoop_finalText_cases (eng : Engine) (backend : List Message → ModelOutcome) :
    ∀ (fuel : Nat) (msgs : List Message) (trace : List TraceEntry) (tc : List ToolCallRecord),
      (chatTurnLoop eng backend fuel msgs trace tc).finalText = noAnswerText ∨
      (chatTurnLoop eng backend fuel msgs trace tc).finalText = rateLimitMessage ∨
      (∃ code, (chatTurnLoop eng backend fuel msgs trace tc).finalText = apiStatusMessage code) ∨
      (chatTurnLoop eng backend fuel msgs trace tc).finalText = unknownErrorMessage ∨
      (∃ msgs0 blocks usage, backend msgs0 = .ok blocks usage ∧
        (chatTurnLoop eng backend fuel msgs trace tc).finalText = finalTextFromBlocks blocks) := by
  intro fuel
  induction fuel with
  | zero => intro msgs trace tc; left; rfl
  | succ fuel ih =>
    intro msgs trace tc
    cases hb : backend msgs with
    | rateLimited detail =>
      right; left
      simp only [chatTurnLoop, hb]
    | apiStatus code detail =>
      right; right; left
      exact ⟨code, by simp only [chatTurnLoop, hb]⟩
    | otherError detail =>
      right; right; right; left
      simp only [chatTurnLoop, hb]
    | ok blocks usage =>
      by_cases hT : (toolUsesOf blocks).isEmpty
      · right; right; right; right
        refine ⟨msgs, blocks, usage, hb, ?_⟩
        simp only [chatTurnLoop, hb, hT, if_pos]
      · have := ih (msgs ++
          [⟨"assistant", .params (contentBlocksToParams blocks)⟩,
           ⟨"user", .params (((toolUsesOf blocks).map
             (fun tu => execToolUse eng tu.1 tu.2.1 tu.2.2)).map (fun r => r.1))⟩,
           ⟨"user", .text steeringText⟩])
          (if eng.routerDebug then
            trace ++ [.hop (if (toolUsesOf blocks).isEmpty then "no_tool" else "tool_use")
                          (serializeBlocks blocks) usage]
           else trace)
          (tc ++ ((toolUsesOf blocks).map
            (fun tu => execToolUse eng tu.1 tu.2.1 tu.2.2)).map (fun r => r.2))
        simpa only [chatTurnLoop, hb, hT, if_neg, Bool.false_eq_true] using this

/-- C1: for every backend behaviour (success, rate limit, API status
error, any other exception) and every transport behaviour, `chatTurn`
returns a result record whose `finalText` is the model's finalized answer
text, the placeholder, or one of the fixed user-safe apology strings; no
error escapes the turn (the loop is a total function of the modelled
outcomes, every `except` branch of the source being one of the error
constructors). -/
theorem chatTurn_never_faults (eng : Engine) (backend : List Message → ModelOutcome)
    (history : List Message) (userText : String) (maxHops : Nat) :
    (chatTurn eng backend history userText maxHops).finalText = noAnswerText ∨
    (chatTurn eng backend history userText maxHops).finalText = rateLimitMessage ∨
    (∃ code, (chatTurn eng backend history userText maxHops).finalText = apiStatusMessage code) ∨
    (chatTurn eng backend history userText maxHops).finalText = unknownErrorMessage ∨
    (∃ msgs0 blocks usage, backend msgs0 = .ok blocks usage ∧
      (chatTurn eng backend history userText maxHops).finalText = finalTextFromBlocks blocks) := by
  simp only [chatTurn]
  exact chatTurnLoop_finalText_cases eng backend maxHops
    (history ++ [⟨"user", .text userText⟩]) [] []

/-- C5: a rate-limit error on the first backend call of a turn terminates
it immediately with the fixed apology, the single error trace entry
(carrying the truncated detail), and an empty tool-call list. -/
theorem chatTurn_rateLimit_first_hop (eng : Engine) (backend : List Message → ModelOutcome)
    (history : List Message) (userText detail : String) (maxHops : Nat)
    (hpos : 0 < maxHops)
    (hb : backend (history ++ [⟨"user", .text userText⟩]) = .rateLimited detail) :
    chatTurn eng backend history userText maxHops =
      ⟨rateLimitMessage, [.errorHop "rate_limit" (detail.take 200)], []⟩ := by
  cases maxHops with
  | zero => exact absurd hpos (by omega)
  | succ n =>
    simp only [chatTurn, chatTurnLoop, hb, List.nil_append]

/-- Witness for C5 at a concrete engine, backend and input. -/
theorem chatTurn_rateLimit_first_hop_witness :
    chatTurn engFalse backendRL [] "hola" 3 =
      ⟨rateLimitMessage, [.errorHop "rate_limit" (String.take "rate limit detail" 200)], []⟩ :=
  chatTurn_rateLimit_first_hop engFalse backendRL [] "hola" "rate limit detail" 3
    (by omega) rfl

/-- C6: manual `callTool` on a name absent from the ownership map raises
`ValueError("Unknown tool: ...")` and performs no transport invocation
(the invocation log of the model is empty, for every transport
behaviour). -/
theorem callTool_unknown_no_invocation (eng : Engine) (name : String) (args : Json)
    (habsent : dictGet eng.toolIndex name = none) :
    callToolManual eng name args = (.error ("Unknown tool: " ++ name), []) := by
  simp only [callToolManual, habsent]

/-- Witness for C6 at a concrete engine with an empty ownership map. -/
theorem callTool_unknown_no_invocation_witness :
    callToolManual engFalse "felValidate" (Json.obj []) =
      (.error ("Unknown tool: " ++ "felValidate"), []) :=
  callTool_unknown_no_invocation engFalse "felValidate" (Json.obj []) rfl

/-- C10: whenever the backend fails on a hop (any of the three error
outcomes), the returned record's calls list is the empty list even if the
accumulated ledger is nonempty: already-executed tool invocations are
discarded from the error result. -/
theorem chatTurnLoop_backend_error_drops_calls (eng : Engine)
    (backend : List Message → ModelOutcome) (msgs : List Message)
    (trace : List TraceEntry) (tc : List ToolCallRecord) (fuel : Nat)
    (hledger : tc ≠ [])
    (herr : ∀ blocks usage, backend msgs ≠ ModelOutcome.ok blocks usage) :
    (chatTurnLoop eng backend (fuel + 1) msgs trace tc).calls = [] := by
  cases hb : backend msgs with
  | ok blocks usage => exact absurd hb (herr blocks usage)
  | rateLimited detail => simp only [chatTurnLoop, hb]
  | apiStatus code detail => simp only [chatTurnLoop, hb]
  | otherError detail => simp only [chatTurnLoop, hb]

/-- Witness for C10: a nonempty ledger is dropped by a rate-limited hop. -/
theorem chatTurnLoop_backend_error_drops_calls_witness :
    (chatTurnLoop engFalse backendRL 1 []
      [] [ToolCallRecord.failure "felValidate" (Json.obj []) "boom"]).calls = [] :=
  chatTurnLoop_backend_error_drops_calls engFalse backendRL [] []
    [ToolCallRecord.failure "felValidate" (Json.obj []) "boom"] 0
    (List.cons_ne_nil _ _)
    (fun _ _ h => ModelOutcome.noConfusion h)

/-- With diagnostics disabled the loop never appends a hop record: the
returned trace is the accumulated one, possibly extended by a single
error entry. -/
theorem chatTurnLoop_trace_silent (eng : Engine) (backend : List Message → ModelOutcome)
    (hdbg : eng.routerDebug = false) :
    ∀ (fuel : Nat) (msgs : List Message) (trace : List TraceEntry) (tc : List ToolCallRecord),
      (chatTurnLoop eng backend fuel msgs trace tc).trace = trace ∨
      ∃ tag detail, (chatTurnLoop eng backend fuel msgs trace tc).trace =
        trace ++ [.errorHop tag detail] := by
  intro fuel
  induction fuel with
  | zero => intro msgs trace tc; left; rfl
  | succ fuel ih =>
    intro msgs trace tc
    cases hb : backend msgs with
    | rateLimited detail =>
      right; exact ⟨"rate_limit", detail.take 200, by simp only [chatTurnLoop, hb]⟩
    | apiStatus code detail =>
      right; exact ⟨"api_status", detail.take 200, by simp only [chatTurnLoop, hb]⟩
    | otherError detail =>
      right; exact ⟨"unknown", detail.take 200, by simp only [chatTurnLoop, hb]⟩
    | ok blocks usage =>
      by_cases hT : (toolUsesOf blocks).isEmpty
      · left
        simp only [chatTurnLoop, hb, hT, if_pos, hdbg, Bool.false_eq_true, if_neg,
          if_false]
      · have := ih (msgs ++
          [⟨"assistant", .params (contentBlocksToParams blocks)⟩,
           ⟨"user", .params (((toolUsesOf blocks).map
             (fun tu => execToolUse eng tu.1 tu.2.1 tu.2.2)).map (fun r => r.1))⟩,
           ⟨"user", .text steeringText⟩])
          trace
          (tc ++ ((toolUsesOf blocks).map
            (fun tu => execToolUse eng tu.1 tu.2.1 tu.2.2)).map (fun r => r.2))
        simpa only [chatTurnLoop, hb, hT, hdbg, Bool.false_eq_true, if_neg, if_false,
          Bool.false_eq_true] using this

/-- C8 (amended): trace entries for hops are produced only when
diagnostics are enabled, so with `routerDebug` off a turn returns an empty
trace on every successful or hop-exhausted path; a model-backend error
termination still appends its single unconditional error entry. -/
theorem chatTurn_trace_empty_when_debug_off (eng : Engine)
    (backend : List Message → ModelOutcome) (history : List Message) (userText : String)
    (maxHops : Nat) (hdbg : eng.routerDebug = false) :
    (chatTurn eng backend history userText maxHops).trace = [] ∨
    ∃ tag detail, (chatTurn eng backend history userText maxHops).trace =
      [TraceEntry.errorHop tag detail] := by
  have := chatTurnLoop_trace_silent eng backend hdbg maxHops
    (history ++ [⟨"user", .text userText⟩]) [] []
  simpa only [chatTurn, List.nil_append] using this

/-- Witness for the amended C8 at a concrete turn. -/
theorem chatTurn_trace_empty_when_debug_off_witness :
    (chatTurn engFalse backendNoTool [] "hola" 3).trace = [] ∨
    ∃ tag detail, (chatTurn engFalse backendNoTool [] "hola" 3).trace =
      [TraceEntry.errorHop tag detail] :=
  chatTurn_trace_empty_when_debug_off engFalse backendNoTool [] "hola" 3 rfl

/-- C8 counterexample: with diagnostics disabled, a rate-limited turn
still returns a nonempty trace (the error entry is appended
unconditionally by the `except` branch), refuting the claim that the
trace is empty on every path. -/
theorem chatTurn_trace_debug_off_counterexample :
    engFalse.routerDebug = false ∧
    (chatTurn engFalse backendRL [] "hola" 3).trace ≠ [] := by
  refine ⟨rfl, ?_⟩
  have he : (chatTurn engFalse backendRL [] "hola" 3).trace =
      [.errorHop "rate_limit" (String.take "rate limit detail" 200)] := rfl
  rw [he]
  exact List.cons_ne_nil _ _

/-- C2: `isPathAllowed` accepts a path exactly when its absolute form
equals the absolute form of one of the roots or extends one past a path
separator; in particular the sibling-directory boundary cases from the
spec hold for every working directory. -/
theorem isPathAllowed_boundary (cwd p : String) (roots : List String) :
    (isPathAllowed cwd p roots = true ↔
      ∃ r ∈ roots, abspath cwd p = abspath cwd r ∨
        strHasPre (abspath cwd p) (abspath cwd r ++ "/") = true) ∧
    isPathAllowed cwd "/data/xml/a.xml" ["/data/xml"] = true ∧
    isPathAllowed cwd "/data/xml2/a.xml" ["/data/xml"] = false := by
  refine ⟨?_, rfl, rfl⟩
  simp [isPathAllowed, List.any_eq_true, Bool.or_eq_true, beq_iff_eq]

/-- Under a backend that requests at least one tool on every hop, with
diagnostics enabled, the loop exhausts its fuel: placeholder answer, one
trace record per hop, and at least one ledger entry per hop. -/
theorem chatTurnLoop_always_tools (eng : Engine) (backend : List Message → ModelOutcome)
    (hdbg : eng.routerDebug = true)
    (htools : ∀ msgs, ∃ blocks usage,
      backend msgs = ModelOutcome.ok blocks usage ∧ toolUsesOf blocks ≠ []) :
    ∀ (fuel : Nat) (msgs : List Message) (trace : List TraceEntry) (tc : List ToolCallRecord),
      (chatTurnLoop eng backend fuel msgs trace tc).finalText = noAnswerText ∧
      (chatTurnLoop eng backend fuel msgs trace tc).trace.length = trace.length + fuel ∧
      tc.length + fuel ≤ (chatTurnLoop eng backend fuel msgs trace tc).calls.length := by
  intro fuel
  induction fuel with
  | zero => intro msgs trace tc; exact ⟨rfl, rfl, by simp only [chatTurnLoop]; omega⟩
  | succ fuel ih =>
    intro msgs trace tc
    obtain ⟨blocks, usage, hb, hne⟩ := htools msgs
    have hT : (toolUsesOf blocks).isEmpty = false := by
      simpa [List.isEmpty_iff] using hne
    have hlen : 1 ≤ (toolUsesOf blocks).length := by
      have := List.length_pos.mpr hne
      omega
    have := ih (msgs ++
        [⟨"assistant", .params (contentBlocksToParams blocks)⟩,
         ⟨"user", .params (((toolUsesOf blocks).map
           (fun tu => execToolUse eng tu.1 tu.2.1 tu.2.2)).map (fun r => r.1))⟩,
         ⟨"user", .text steeringText⟩])
      (trace ++ [.hop (if (toolUsesOf blocks).isEmpty then "no_tool" else "tool_use")
                     (serializeBlocks blocks) usage])
      (tc ++ ((toolUsesOf blocks).map
        (fun tu => execToolUse eng tu.1 tu.2.1 tu.2.2)).map (fun r => r.2))
    obtain ⟨h1, h2, h3⟩ := this
    refine ⟨?_, ?_, ?_⟩
    · simpa only [chatTurnLoop, hb, hT, hdbg, if_true, Bool.false_eq_true, if_neg,
        if_false] using h1
    · rw [show (chatTurnLoop eng backend (fuel + 1) msgs trace tc) =
        (chatTurnLoop eng backend fuel (msgs ++
          [⟨"assistant", .params (contentBlocksToParams blocks)⟩,
           ⟨"user", .params (((toolUsesOf blocks).map
             (fun tu => execToolUse eng tu.1 tu.2.1 tu.2.2)).map (fun r => r.1))⟩,
           ⟨"user", .text steeringText⟩])
          (trace ++ [.hop (if (toolUsesOf blocks).isEmpty then "no_tool" else "tool_use")
                         (serializeBlocks blocks) usage])
          (tc ++ ((toolUsesOf blocks).map
            (fun tu => execToolUse eng tu.1 tu.2.1 tu.2.2)).map (fun r => r.2)))
        from by simp only [chatTurnLoop, hb, hT, hdbg, if_true, Bool.false_eq_true, if_false]]
      rw [h2]
      simp only [List.length_append, List.length_cons, List.length_nil]
      omega
    · rw [show (chatTurnLoop eng backend (fuel + 1) msgs trace tc) =
        (chatTurnLoop eng backend fuel (msgs ++
          [⟨"assistant", .params (contentBlocksToParams blocks)⟩,
           ⟨"user", .params (((toolUsesOf blocks).map
             (fun tu => execToolUse eng tu.1 tu.2.1 tu.2.2)).map (fun r => r.1))⟩,
           ⟨"user", .text steeringText⟩])
          (trace ++ [.hop (if (toolUsesOf blocks).isEmpty then "no_tool" else "tool_use")
                         (serializeBlocks blocks) usage])
          (tc ++ ((toolUsesOf blocks).map
            (fun tu => execToolUse eng tu.1 tu.2.1 tu.2.2)).map (fun r => r.2)))
        from by simp only [chatTurnLoop, hb, hT, hdbg, if_true, Bool.false_eq_true, if_false]]
      have hlen2 : (tc ++ ((toolUsesOf blocks).map
          (fun tu => execToolUse eng tu.1 tu.2.1 tu.2.2)).map (fun r => r.2)).length
          = tc.length + (toolUsesOf blocks).length := by
        simp [List.length_append, List.length_map]
      omega

/-- C4: against a model that requests at least one tool on every hop, a
turn with `maxHops = 3` and diagnostics enabled terminates with the
placeholder final answer, exactly 3 trace entries, and the accumulated
ledger (at least one record per hop). -/
theorem chatTurn_hop_exhaustion (eng : Engine) (backend : List Message → ModelOutcome)
    (history : List Message) (userText : String)
    (hdbg : eng.routerDebug = true)
    (htools : ∀ msgs, ∃ blocks usage,
      backend msgs = ModelOutcome.ok blocks usage ∧ toolUsesOf blocks ≠ []) :
    (chatTurn eng backend history userText 3).finalText = noAnswerText ∧
    (chatTurn eng backend history userText 3).trace.length = 3 ∧
    3 ≤ (chatTurn eng backend history userText 3).calls.length := by
  have := chatTurnLoop_always_tools eng backend hdbg htools 3
    (history ++ [⟨"user", .text userText⟩]) [] []
  simpa only [chatTurn, List.length_nil, Nat.zero_add] using this

/-- Witness for C4 at a concrete engine and always-tool backend. -/
theorem chatTurn_hop_exhaustion_witness :
    (chatTurn engTrue backendTools [] "genera pdf" 3).finalText = noAnswerText ∧
    (chatTurn engTrue backendTools [] "genera pdf" 3).trace.length = 3 ∧
    3 ≤ (chatTurn engTrue backendTools [] "genera pdf" 3).calls.length :=
  chatTurn_hop_exhaustion engTrue backendTools [] "genera pdf" rfl
    (fun _ => ⟨[RespBlock.toolUse "tu1" "felValidate" (Json.obj [])], usageZero, rfl,
      by simp [toolUsesOf]⟩)

/-- Looking up the key just inserted yields the inserted value. -/
theorem dictGet_dictInsert_self {α : Type} (d : List (String × α)) (k : String) (v : α) :
    dictGet (dictInsert d k v) k = some v := by
  induction d with
  | nil => simp [dictInsert, dictGet]
  | cons kv rest ih =>
    obtain ⟨k0, v0⟩ := kv
    by_cases h : k0 = k <;> simp [dictInsert, dictGet, h, ih]

/-- Inserting under one key leaves lookups of other keys unchanged. -/
theorem dictGet_dictInsert_ne {α : Type} (d : List (String × α)) (k k2 : String) (v : α)
    (h : k ≠ k2) : dictGet (dictInsert d k v) k2 = dictGet d k2 := by
  induction d with
  | nil => simp [dictInsert, dictGet, h]
  | cons kv rest ih =>
    obtain ⟨k0, v0⟩ := kv
    by_cases h0 : k0 = k
    · subst h0
      have hk2 : k0 ≠ k2 := h
      simp [dictInsert, dictGet, hk2]
    · by_cases h2 : k0 = k2
      · subst h2
        simp [dictInsert, dictGet, h0]
      · simp [dictInsert, dictGet, h0, h2, ih]

/-- Folding a transport's descriptors leaves undeclared names untouched. -/
theorem dictGet_registerFold_not_mem (ts : List ToolDescriptor) (i : Nat) (name : String)
    (hnot : name ∉ ts.map ToolDescriptor.name) :
    ∀ d, dictGet (ts.foldl (fun d t => dictInsert d t.name i) d) name = dictGet d name := by
  induction ts with
  | nil => intro d; rfl
  | cons t rest ih =>
    intro d
    have ht : t.name ≠ name := fun h => hnot (by simp [← h])
    have hr : name ∉ rest.map ToolDescriptor.name := fun h => hnot (by simp [h])
    simpa [List.foldl_cons] using
      (ih hr (dictInsert d t.name i)).trans (dictGet_dictInsert_ne _ _ _ _ ht)

/-- Folding a transport's descriptors into the index under position `i`
maps every declared name to `i`. -/
theorem dictGet_registerFold_mem (ts : List ToolDescriptor) (i : Nat) (name : String)
    (hmem : name ∈ ts.map ToolDescriptor.name) :
    ∀ d, dictGet (ts.foldl (fun d t => dictInsert d t.name i) d) name = some i := by
  induction ts with
  | nil => simp at hmem
  | cons t rest ih =>
    intro d
    by_cases hr : name ∈ rest.map ToolDescriptor.name
    · simpa [List.foldl_cons] using ih hr (dictInsert d t.name i)
    · have hname : t.name = name := by
        rcases (by simpa using hmem : name = t.name ∨ ∃ a ∈ rest, a.name = name) with
          h | ⟨a, ha, hna⟩
        · exact h.symm
        · exact absurd (List.mem_map.mpr ⟨a, ha, hna⟩) hr
      rw [List.foldl_cons, hname]
      exact (dictGet_registerFold_not_mem rest i name hr
        (dictInsert d name i)).trans (dictGet_dictInsert_self d name i)

/-- `buildIndex` leaves names declared by no processed transport
untouched. -/
theorem buildIndex_not_mem (transports : List (List ToolDescriptor)) (name : String)
    (hnot : ∀ ts ∈ transports, name ∉ ts.map ToolDescriptor.name) :
    ∀ (i : Nat) (d : List (String × Nat)),
      dictGet (buildIndex i transports d) name = dictGet d name := by
  induction transports with
  | nil => intro i d; rfl
  | cons ts rest ih =>
    intro i d
    have h1 : name ∉ ts.map ToolDescriptor.name := hnot ts (by simp)
    have h2 : ∀ u ∈ rest, name ∉ u.map ToolDescriptor.name :=
      fun u hu => hnot u (by simp [hu])
    simpa [buildIndex] using
      (ih h2 (i + 1) _).trans (dictGet_registerFold_not_mem ts i name h1 d)

/-- `buildIndex` routes a name to the last transport that declares it:
if transport `j` declares `name` and no later one does, the ownership map
sends `name` to `i + j` (`i` being the position of the first transport in
the remaining list). -/
theorem buildIndex_last_owner :
    ∀ (transports : List (List ToolDescriptor)) (j : Nat) (tsj : List ToolDescriptor)
      (name : String) (i : Nat) (d : List (String × Nat)),
      transports[j]? = some tsj →
      name ∈ tsj.map ToolDescriptor.name →
      (∀ k tk, j < k → transports[k]? = some tk → name ∉ tk.map ToolDescriptor.name) →
      dictGet (buildIndex i transports d) name = some (i + j) := by
  intro transports
  induction transports with
  | nil => intro j tsj name i d hj; simp at hj
  | cons ts rest ih =>
    intro j tsj name i d hj hmem hlater
    cases j with
    | zero =>
      have hts : ts = tsj := by simpa using hj
      subst hts
      have hrest : ∀ u ∈ rest, name ∉ u.map ToolDescriptor.name := by
        intro u hu
        obtain ⟨k, hk⟩ := List.mem_iff_getElem?.mp hu
        exact hlater (k + 1) u (by omega) (by simpa using hk)
      have := buildIndex_not_mem rest name hrest (i + 1)
        (ts.foldl (fun d t => dictInsert d t.name i) d)
      simpa [buildIndex, this] using dictGet_registerFold_mem ts i name hmem d
    | succ j2 =>
      have hj2 : rest[j2]? = some tsj := by simpa using hj
      have hlater2 : ∀ k tk, j2 < k → rest[k]? = some tk →
          name ∉ tk.map ToolDescriptor.name :=
        fun k tk hk hget => hlater (k + 1) tk (by omega) (by simpa using hget)
      have := ih j2 tsj name (i + 1)
        (ts.foldl (fun d t => dictInsert d t.name i) d) hj2 hmem hlater2
      rw [show i + (j2 + 1) = (i + 1) + j2 from by omega]
      simpa [buildIndex] using this

/-- C3: the merged catalog's size equals the sum of the transports'
reported tool counts, and a tool name declared by two transports is routed
by the ownership map to the later transport in configuration order
(last-write-wins), not to an error. -/
theorem startCatalog_size_and_last_wins :
    (∀ transports : List (List ToolDescriptor),
      ((mergeToolCatalog transports).map ToolDescriptor.name).Nodup →
      (mergeToolCatalog transports).length = (transports.map List.length).sum) ∧
    (∀ (transports : List (List ToolDescriptor)) (name : String) (i j : Nat)
        (tsi tsj : List ToolDescriptor),
      i < j →
      transports[i]? = some tsi → transports[j]? = some tsj →
      name ∈ tsi.map ToolDescriptor.name → name ∈ tsj.map ToolDescriptor.name →
      (∀ k tk, j < k → transports[k]? = some tk → name ∉ tk.map ToolDescriptor.name) →
      dictGet (startToolIndex transports) name = some j) := by
  constructor
  · intro transports _
    simp [mergeToolCatalog, List.length_flatten]
  · intro transports name i j tsi tsj hij hi hj hmi hmj hlater
    simpa [startToolIndex] using
      buildIndex_last_owner transports j tsj name 0 [] hj hmj hlater

/-- A concrete descriptor for the C3 witness. -/
def tdNamed (n : String) : ToolDescriptor := ⟨n, "", .obj []⟩

/-- Witness for C3: two transports, both declaring `"x"`; the catalog
size adds up and `"x"` routes to the later transport (position 1). -/
theorem startCatalog_size_and_last_wins_witness :
    (mergeToolCatalog [[tdNamed "x"], [tdNamed "y"]]).length =
      ([[tdNamed "x"], [tdNamed "y"]].map List.length).sum ∧
    dictGet (startToolIndex [[tdNamed "x"], [tdNamed "x", tdNamed "y"]]) "x" = some 1 := by
  constructor
  · exact startCatalog_size_and_last_wins.1 [[tdNamed "x"], [tdNamed "y"]]
      (by simp [mergeToolCatalog, tdNamed])
  · refine startCatalog_size_and_last_wins.2 [[tdNamed "x"], [tdNamed "x", tdNamed "y"]]
      "x" 0 1 [tdNamed "x"] [tdNamed "x", tdNamed "y"] (by omega) rfl rfl
      (by simp [tdNamed]) (by simp [tdNamed]) ?_
    intro k tk hk hget
    rcases k with _ | _ | k2
    · omega
    · omega
    · simp at hget

/-- The key loop of the sanitizer selects exactly the first violating key
in key-list order, as `List.find?` does over the violation predicate. -/
theorem sanitizeLoop_eq_find (cwd : String) (members : List (String × Json))
    (roots : List String) :
    ∀ keys : List String,
      sanitizeLoop cwd members roots keys =
        match keys.find? (fun key =>
            match dictGet members key with
            | some v => jsonTruthy v && !(isPathAllowed cwd (pyStr v) roots)
            | none => false) with
        | some key => .error ("Blocked path: " ++ pyStr ((dictGet members key).getD .null))
        | none => .ok () := by
  intro keys
  induction keys with
  | nil => simp [sanitizeLoop, List.find?]
  | cons key rest ih =>
    cases hv : dictGet members key with
    | none => simpa [sanitizeLoop, List.find?, hv] using ih
    | some v =>
      by_cases ht : jsonTruthy v
      · by_cases ha : isPathAllowed cwd (pyStr v) roots
        · simpa [sanitizeLoop, List.find?, hv, ht, ha] using ih
        · simp [sanitizeLoop, List.find?, hv, ht, ha]
      · simpa [sanitizeLoop, List.find?, hv, ht] using ih

/-- C7: `sanitizeMcpArgs` coincides with the sanitizer described by the
spec on every input — empty argument set for non-mapping input, failure
carrying the first truthy disallowed path-bearing value, identity
otherwise ("present and non-empty" read as Python truthiness). -/
theorem sanitize_refines_spec (cwd : String) (args : Json) (roots : List String) :
    sanitizeMcpArgs cwd args roots = sanitizeSpec cwd args roots := by
  cases args with
  | obj members =>
    simp only [sanitizeMcpArgs, sanitizeSpec, sanitizeLoop_eq_find]
    rcases hf : List.find? (fun key =>
        match dictGet members key with
        | some v => jsonTruthy v && !(isPathAllowed cwd (pyStr v) roots)
        | none => false) pathKeys with _ | key
    · simp [hf]
    · simp [hf]
  | null => rfl
  | bool b => rfl
  | num n => rfl
  | str s => rfl
  | arr items => rfl

/-- Key list without duplicates (the shape of every Python dict). -/
def noDupKeysB : List String → Bool
  | [] => true
  | k :: rest => !(rest.contains k) && noDupKeysB rest

mutual
/-- A value in the image of `json.loads`: every object, recursively, has
pairwise distinct keys, as any Python dict does. -/
def canonicalB : Json → Bool
  | .arr xs => canItemsB xs
  | .obj kvs => noDupKeysB (kvs.map (fun kv => kv.1)) && canFieldsB kvs
  | _ => true
termination_by v => sizeOf v
decreasing_by all_goals simp_wf <;> omega

/-- All array items canonical. -/
def canItemsB : List Json → Bool
  | [] => true
  | x :: xs => canonicalB x && canItemsB xs
termination_by xs => sizeOf xs
decreasing_by all_goals simp_wf <;> omega

/-- All member values canonical. -/
def canFieldsB : List (String × Json) → Bool
  | [] => true
  | (_, v) :: kvs => canonicalB v && canFieldsB kvs
termination_by kvs => sizeOf kvs
decreasing_by all_goals simp_wf <;> omega
end

mutual
/-- Fuel sufficient for `parseVal` to reparse a printed value: one unit
per nested value. -/
def jfuel : Json → Nat
  | .arr xs => 1 + jfuelItems xs
  | .obj kvs => 1 + jfuelFields kvs
  | _ => 1
termination_by v => sizeOf v
decreasing_by all_goals simp_wf <;> omega

/-- Fuel for `parseItems` over the remaining items. -/
def jfuelItems : List Json → Nat
  | [] => 0
  | x :: xs => 1 + jfuel x + jfuelItems xs
termination_by xs => sizeOf xs
decreasing_by all_goals simp_wf <;> omega

/-- Fuel for `parseFields` over the remaining members. -/
def jfuelFields : List (String × Json) → Nat
  | [] => 0
  | (_, v) :: kvs => 1 + jfuel v + jfuelFields kvs
termination_by kvs => sizeOf kvs
decreasing_by all_goals simp_wf <;> omega
end

/-- A remainder that cannot extend a printed number: empty, or headed by a
character that is neither a digit nor a fraction/exponent mark.  Every
position a printed value occupies inside `dumps` output (before `,`, `]`,
`}`, or the end) qualifies. -/
def numStopB : List Char → Bool
  | [] => true
  | c :: _ => (digVal? c).isNone && !(c == '.') && !(c == 'e') && !(c == 'E')

/-- A digit character is no given non-digit character. -/
theorem digVal_ne {c : Char} {d : Nat} (h : digVal? c = some d) (x : Char)
    (hx : digVal? x = none) : c ≠ x := by
  intro he
  subst he
  rw [h] at hx
  exact Option.noConfusion hx

/-- The decimal digit table inverts under `digVal?`. -/
theorem digVal_digitChar (d : Nat) (h : d < 10) : digVal? (digitChar d) = some d := by
  interval_cases d <;> rfl

/-- The hexadecimal digit table inverts under `hexVal?`. -/
theorem hexVal_hexDigitChar (d : Nat) (h : d < 16) : hexVal? (hexDigitChar d) = some d := by
  interval_cases d <;> rfl

/-- A nonzero digit's character differs from `'0'`. -/
theorem digitChar_ne_zero (d : Nat) (h : d < 10) (hd : d ≠ 0) : digitChar d ≠ '0' := by
  interval_cases d
  · exact absurd rfl hd
  all_goals decide

/-- `readDigits` consumes exactly a run of digit characters (most
significant first), folding them onto the accumulator, and stops at the
first non-digit. -/
theorem readDigits_run (L : List Nat) (hL : ∀ d ∈ L, d < 10) :
    ∀ (acc : Nat) (rest : List Char),
      (∀ c, rest.head? = some c → digVal? c = none) →
      readDigits acc (L.map digitChar ++ rest) = (L.foldl (fun a d => a * 10 + d) acc, rest) := by
  induction L with
  | nil =>
    intro acc rest hstop
    cases rest with
    | nil => rfl
    | cons c t =>
      have := hstop c rfl
      simp [readDigits, this]
  | cons d L2 ih =>
    intro acc rest hstop
    have hd : d < 10 := hL d (by simp)
    have hL2 : ∀ e ∈ L2, e < 10 := fun e he => hL e (by simp [he])
    simp [readDigits, digVal_digitChar d hd, ih hL2 (acc * 10 + d) rest hstop]

/-- Folding most-significant-first digits is evaluation of `Nat.ofDigits`
with the accumulator shifted past them. -/
theorem foldl_reverse_digits (L : List Nat) :
    ∀ a : Nat, L.reverse.foldl (fun x d => x * 10 + d) a = a * 10 ^ L.length + Nat.ofDigits 10 L := by
  induction L with
  | nil => intro a; simp [Nat.ofDigits]
  | cons d L2 ih =>
    intro a
    rw [List.reverse_cons, List.foldl_append, ih a]
    simp only [List.foldl_cons, List.foldl_nil, Nat.ofDigits_cons, List.length_cons,
      pow_succ]
    ring

/-- `readNat?` inverts the decimal printer on a remainder that cannot
extend the number. -/
theorem readNat_natChars (n : Nat) (rest : List Char)
    (hstop : ∀ c, rest.head? = some c → digVal? c = none) :
    readNat? (natChars n ++ rest) = some (n, rest) := by
  by_cases hn : n = 0
  · subst hn
    simp [natChars, readNat?]
  · have hdig : ∀ d ∈ Nat.digits 10 n, d < 10 :=
      fun d hd => Nat.digits_lt_base (by omega) hd
    have hne : Nat.digits 10 n ≠ [] := Nat.digits_ne_nil_iff_ne_zero.mpr hn
    obtain ⟨d0, R, hR⟩ : ∃ d0 R, (Nat.digits 10 n).reverse = d0 :: R := by
      cases hrev : (Nat.digits 10 n).reverse with
      | nil =>
        exact absurd (by simpa using congrArg List.reverse hrev) hne
      | cons a b => exact ⟨a, b, rfl⟩
    have hd0mem : d0 ∈ Nat.digits 10 n := by
      have : d0 ∈ (Nat.digits 10 n).reverse := by simp [hR]
      simpa using this
    have hd0lt : d0 < 10 := hdig d0 hd0mem
    have hd0ne : d0 ≠ 0 := by
      have hlast : (Nat.digits 10 n).getLast? = some d0 := by
        rw [← List.head?_reverse, hR]
        rfl
      have h3 : (Nat.digits 10 n).getLast hne = d0 :=
        (List.getLast_eq_iff_getLast?_eq_some hne).mpr hlast
      rw [← h3]
      exact Nat.getLast_digit_ne_zero 10 hn
    have hchars : natChars n = digitChar d0 :: R.map digitChar := by
      simp only [natChars, if_neg hn, ← List.map_reverse, hR, List.map_cons]
    have hRlt : ∀ d ∈ R, d < 10 := by
      intro d hd
      exact hdig d (by
        have : d ∈ (Nat.digits 10 n).reverse := by simp [hR, hd]
        simpa using this)
    rw [hchars]
    simp only [List.cons_append, readNat?, if_neg (digitChar_ne_zero d0 hd0lt hd0ne),
      digVal_digitChar d0 hd0lt]
    rw [readDigits_run R hRlt d0 rest hstop]
    have hfold : R.foldl (fun a d => a * 10 + d) d0 = n := by
      have h1 : (d0 :: R).foldl (fun a d => a * 10 + d) 0 =
          R.foldl (fun a d => a * 10 + d) d0 := by simp
      have h2 : (Nat.digits 10 n).reverse.foldl (fun a d => a * 10 + d) 0 = n := by
        rw [foldl_reverse_digits]
        simpa using Nat.ofDigits_digits 10 n
      rw [← h1, ← hR, h2]
    rw [hfold]

/-- Decomposition of a positive `numStopB` remainder. -/
theorem numStopB_head {c : Char} {t : List Char} (h : numStopB (c :: t) = true) :
    digVal? c = none ∧ c ≠ '.' ∧ c ≠ 'e' ∧ c ≠ 'E' := by
  simp only [numStopB, Bool.and_eq_true, Bool.not_eq_true', beq_eq_false_iff_ne,
    Option.isNone_iff_eq_none] at h
  exact ⟨h.1.1.1, h.1.1.2, h.1.2, h.2⟩

/-- `readNum?` inverts the decimal printer: the integer-fragment guard
(no `.`/`e`/`E` continuation) is satisfied by any `numStopB` remainder. -/
theorem readNum_natChars (n : Nat) (rest : List Char) (hrest : numStopB rest = true) :
    readNum? (natChars n ++ rest) = some (n, rest) := by
  have hstop : ∀ c, rest.head? = some c → digVal? c = none := by
    intro c hc
    cases rest with
    | nil => exact absurd hc (by simp)
    | cons c0 t =>
      obtain ⟨h1, _, _, _⟩ := numStopB_head hrest
      have : c0 = c := by simpa using hc
      rwa [← this]
  rw [readNum?, readNat_natChars n rest hstop]
  cases rest with
  | nil => rfl
  | cons c0 t =>
    obtain ⟨_, h2, h3, h4⟩ := numStopB_head hrest
    simp [h2, h3, h4]

/-- Parsing one escaped character consumes exactly its escape and records
the character. -/
theorem readStr_escChar_step (c : Char) (acc tail : List Char) :
    readStr acc (escChar c ++ tail) = readStr (c :: acc) tail := by
  by_cases h1 : c = '"'
  · subst h1; simp [escChar, readStr, readEsc, unescChar?]
  · by_cases h2 : c = '\\'
    · subst h2; simp [escChar, readStr, readEsc, unescChar?]
    · by_cases h3 : c = '\n'
      · subst h3; simp [escChar, readStr, readEsc, unescChar?]
      · by_cases h4 : c = '\r'
        · subst h4; simp [escChar, readStr, readEsc, unescChar?]
        · by_cases h5 : c = '\t'
          · subst h5; simp [escChar, readStr, readEsc, unescChar?]
          · by_cases h6 : c = Char.ofNat 8
            · subst h6; simp [escChar, readStr, readEsc, unescChar?]
            · by_cases h7 : c = Char.ofNat 12
              · subst h7; simp [escChar, readStr, readEsc, unescChar?]
              · by_cases h8 : c.toNat < 0x20
                · have hq : c.toNat / 16 < 16 := by omega
                  have hr : c.toNat % 16 < 16 := by omega
                  simp only [escChar, h1, h2, h3, h4, h5, h6, h7, h8, if_true, if_false,
                    ite_true, ite_false, if_neg, if_pos, List.cons_append, List.nil_append]
                  rw [readStr]
                  have hv0 : hexVal? '0' = some 0 := by decide
                  simp [readEsc, readHex, hv0, hexVal_hexDigitChar _ hq,
                    hexVal_hexDigitChar _ hr]
                  rw [show c.toNat / 16 * 16 + c.toNat % 16 = c.toNat from by omega,
                    if_neg (show ¬(0xD800 ≤ c.toNat ∧ c.toNat ≤ 0xDFFF) from by omega),
                    Char.ofNat_toNat]
                · simp only [escChar, h1, h2, h3, h4, h5, h6, h7, h8, if_false, ite_false,
                    if_neg, List.cons_append, List.nil_append]
                  rw [readStr]
                  simp [h1, h2, h8]

/-- Scanning an escaped string body stops exactly at the closing quote and
recovers the original characters. -/
theorem readStr_escaped (cs : List Char) : ∀ (acc rest : List Char),
    readStr acc (cs.flatMap escChar ++ '"' :: rest) =
      some (String.mk (acc.reverse ++ cs), rest) := by
  induction cs with
  | nil =>
    intro acc rest
    simp [readStr]
  | cons c cs2 ih =>
    intro acc rest
    rw [List.flatMap_cons, List.append_assoc, readStr_escChar_step, ih]
    simp

/-- The string literal round trip at the `parseVal` entry point. -/
theorem readStr_strChars (s : String) (rest : List Char) :
    readStr [] (s.data.flatMap escChar ++ '"' :: rest) = some (s, rest) := by
  rw [readStr_escaped]
  cases s
  simp

/-- The head of a printed nonzero natural is a digit character. -/
theorem natChars_head (n : Nat) :
    ∃ d t, natChars n = digitChar d :: t ∧ d < 10 := by
  by_cases hn : n = 0
  · exact ⟨0, [], by simp [hn, natChars, digitChar], by omega⟩
  · have hdig : ∀ d ∈ Nat.digits 10 n, d < 10 :=
      fun d hd => Nat.digits_lt_base (by omega) hd
    have hne : Nat.digits 10 n ≠ [] := Nat.digits_ne_nil_iff_ne_zero.mpr hn
    obtain ⟨d0, R, hR⟩ : ∃ d0 R, (Nat.digits 10 n).reverse = d0 :: R := by
      cases hrev : (Nat.digits 10 n).reverse with
      | nil => exact absurd (by simpa using congrArg List.reverse hrev) hne
      | cons a b => exact ⟨a, b, rfl⟩
    refine ⟨d0, R.map digitChar, ?_, ?_⟩
    · simp only [natChars, if_neg hn, ← List.map_reverse, hR, List.map_cons]
    · exact hdig d0 (by
        have : d0 ∈ (Nat.digits 10 n).reverse := by simp [hR]
        simpa using this)

/-- Digit characters are not JSON whitespace and none of the punctuation
characters relevant to value layout. -/
theorem digitChar_not_special (d : Nat) (h : d < 10) :
    isWsChar (digitChar d) = false ∧ digitChar d ≠ ']' ∧ digitChar d ≠ '}' ∧
    digitChar d ≠ ',' ∧ digitChar d ≠ 'n' ∧ digitChar d ≠ 't' ∧ digitChar d ≠ 'f' ∧
    digitChar d ≠ '"' ∧ digitChar d ≠ '[' ∧ digitChar d ≠ '{' ∧ digitChar d ≠ '-' := by
  interval_cases d <;> exact ⟨rfl, by decide, by decide, by decide, by decide, by decide,
    by decide, by decide, by decide, by decide, by decide⟩

/-- Every printed value begins with a non-whitespace character that closes
nothing and separates nothing. -/
theorem printJson_head (v : Json) :
    ∃ c t, printJson v = c :: t ∧ isWsChar c = false ∧ c ≠ ']' ∧ c ≠ '}' ∧ c ≠ ',' := by
  cases v with
  | null =>
    exact ⟨'n', ['u', 'l', 'l'], by simp [printJson], by decide, by decide, by decide,
      by decide⟩
  | bool b =>
    cases b with
    | true =>
      exact ⟨'t', ['r', 'u', 'e'], by simp [printJson], by decide, by decide, by decide,
        by decide⟩
    | false =>
      exact ⟨'f', ['a', 'l', 's', 'e'], by simp [printJson], by decide, by decide,
        by decide, by decide⟩
  | str s =>
    exact ⟨'"', s.data.flatMap escChar ++ ['"'], by simp [printJson, strChars],
      by decide, by decide, by decide, by decide⟩
  | arr items =>
    cases items with
    | nil =>
      exact ⟨'[', [']'], by simp [printJson], by decide, by decide, by decide, by decide⟩
    | cons x xs =>
      exact ⟨'[', printItems x xs ++ [']'], by simp [printJson], by decide, by decide,
        by decide, by decide⟩
  | obj members =>
    cases members with
    | nil =>
      exact ⟨'{', ['}'], by simp [printJson], by decide, by decide, by decide, by decide⟩
    | cons kv kvs =>
      exact ⟨'{', printFields kv kvs ++ ['}'], by simp [printJson], by decide, by decide,
        by decide, by decide⟩
  | num i =>
    by_cases hi : i < 0
    · refine ⟨'-', natChars i.natAbs, ?_, by decide, by decide, by decide, by decide⟩
      simp [printJson, intChars, hi]
    · obtain ⟨d, t, hd, hdlt⟩ := natChars_head i.natAbs
      obtain ⟨hws, hbr, hbc, hcm, _, _, _, _, _, _, _⟩ := digitChar_not_special d hdlt
      refine ⟨digitChar d, t, ?_, hws, hbr, hbc, hcm⟩
      simp [printJson, intChars, hi, hd]

/-- `skipWs` is the identity on anything that starts with a non-space. -/
theorem skipWs_not_ws {c : Char} (t : List Char) (h : isWsChar c = false) :
    skipWs (c :: t) = c :: t := by
  simp [skipWs, h]

/-- `skipWs` is the identity on printed output. -/
theorem skipWs_printJson (v : Json) (x : List Char) :
    skipWs (printJson v ++ x) = printJson v ++ x := by
  obtain ⟨c, t, hp, hws, _, _, _⟩ := printJson_head v
  rw [hp, List.cons_append, skipWs_not_ws _ hws]

mutual
/-- The fuel needed to reparse a printed value is bounded by its printed
length (plus one). -/
theorem jfuel_le_print : ∀ v : Json, jfuel v ≤ (printJson v).length + 1
  | .null => by simp [jfuel, printJson]
  | .bool b => by cases b <;> simp [jfuel, printJson]
  | .num i => by simp [jfuel, printJson]
  | .str s => by simp [jfuel, printJson]
  | .arr [] => by simp [jfuel, jfuelItems, printJson]
  | .arr (x :: xs) => by
    have h := jfuelItems_le_print x xs
    simp only [jfuel, jfuelItems, printJson, List.length_cons, List.length_append,
      List.length_nil] at h ⊢
    omega
  | .obj [] => by simp [jfuel, jfuelFields, printJson]
  | .obj (kv :: kvs) => by
    have h := jfuelFields_le_print kv kvs
    simp only [jfuel, jfuelFields, printJson, List.length_cons, List.length_append,
      List.length_nil] at h ⊢
    omega
termination_by v => sizeOf v
decreasing_by all_goals simp_wf <;> omega

/-- The item-list fuel is bounded by the printed item run (plus two). -/
theorem jfuelItems_le_print : ∀ (x : Json) (xs : List Json),
    jfuelItems (x :: xs) ≤ (printItems x xs).length + 2
  | x, [] => by
    have h := jfuel_le_print x
    simp only [jfuelItems, printItems, List.length_append, List.length_cons,
      List.length_nil]
    omega
  | x, y :: ys => by
    have h1 := jfuel_le_print x
    have h2 := jfuelItems_le_print y ys
    simp only [jfuelItems, printItems, List.length_append, List.length_cons,
      List.length_nil] at h2 ⊢
    omega
termination_by x xs => 1 + sizeOf x + sizeOf xs
decreasing_by all_goals simp_wf <;> omega

/-- The member-list fuel is bounded by the printed member run (plus two). -/
theorem jfuelFields_le_print : ∀ (kv : String × Json) (kvs : List (String × Json)),
    jfuelFields (kv :: kvs) ≤ (printFields kv kvs).length + 2
  | (k, v), [] => by
    have h := jfuel_le_print v
    simp only [jfuelFields, printFields, List.length_append, List.length_cons,
      List.length_nil]
    omega
  | (k, v), f :: fs => by
    have h1 := jfuel_le_print v
    have h2 := jfuelFields_le_print f fs
    simp only [jfuelFields, printFields, List.length_append, List.length_cons,
      List.length_nil] at h2 ⊢
    omega
termination_by kv kvs => 1 + sizeOf kv + sizeOf kvs
decreasing_by all_goals simp_wf <;> omega
end

/-- Inserting a fresh key appends. -/
theorem dictInsert_fresh {α : Type} (d : List (String × α)) (k : String) (v : α)
    (h : k ∉ d.map Prod.fst) : dictInsert d k v = d ++ [(k, v)] := by
  induction d with
  | nil => rfl
  | cons kv rest ih =>
    obtain ⟨k0, v0⟩ := kv
    have hk0 : k0 ≠ k := fun he => h (by simp [he])
    have hrest : k ∉ rest.map Prod.fst := fun he => h (by simp [he])
    simp [dictInsert, hk0, ih hrest]

/-- Rebuilding a dict from pairs with pairwise distinct keys appended to a
key-disjoint accumulator is concatenation. -/
theorem foldl_dictInsert_fresh (l : List (String × Json)) :
    ∀ acc : List (String × Json),
      (l.map Prod.fst).Nodup →
      (∀ k ∈ l.map Prod.fst, k ∉ acc.map Prod.fst) →
      l.foldl (fun d kv => dictInsert d kv.1 kv.2) acc = acc ++ l := by
  induction l with
  | nil => intro acc _ _; simp
  | cons kv rest ih =>
    intro acc hnodup hdisj
    obtain ⟨k, v⟩ := kv
    have hk : k ∉ acc.map Prod.fst := hdisj k (by simp)
    have hknr : k ∉ rest.map Prod.fst := by
      have := hnodup
      simp only [List.map_cons, List.nodup_cons] at this
      exact this.1
    have hrest_nodup : (rest.map Prod.fst).Nodup := by
      have := hnodup
      simp only [List.map_cons, List.nodup_cons] at this
      exact this.2
    have hdisj2 : ∀ k2 ∈ rest.map Prod.fst, k2 ∉ (acc ++ [(k, v)]).map Prod.fst := by
      intro k2 hk2
      simp only [List.map_append, List.mem_append, List.map_cons, List.map_nil,
        List.mem_singleton]
      rintro (h | h)
      · exact hdisj k2 (by simp [hk2]) h
      · exact hknr (h ▸ hk2)
    calc ((k, v) :: rest).foldl (fun d kv => dictInsert d kv.1 kv.2) acc
        = rest.foldl (fun d kv => dictInsert d kv.1 kv.2) (dictInsert acc k v) := by
          simp [List.foldl_cons]
      _ = rest.foldl (fun d kv => dictInsert d kv.1 kv.2) (acc ++ [(k, v)]) := by
          rw [dictInsert_fresh acc k v hk]
      _ = (acc ++ [(k, v)]) ++ rest := ih (acc ++ [(k, v)]) hrest_nodup hdisj2
      _ = acc ++ (k, v) :: rest := by simp

/-- `dict(pairs)` is the identity on pair lists with distinct keys. -/
theorem pairsToDict_self (l : List (String × Json)) (h : (l.map Prod.fst).Nodup) :
    pairsToDict l = l := by
  simpa using foldl_dictInsert_fresh l [] h (by simp)

/-- Members of an insertion come from the dict or are exactly the
inserted pair. -/
theorem mem_dictInsert {α : Type} {p : String × α} {d : List (String × α)} {k : String}
    {v : α} (h : p ∈ dictInsert d k v) : p ∈ d ∨ p = (k, v) := by
  induction d with
  | nil => simpa [dictInsert] using h
  | cons kv rest ih =>
    obtain ⟨k0, v0⟩ := kv
    by_cases h0 : k0 = k
    · subst h0
      rcases (by simpa [dictInsert] using h : p = (k0, v) ∨ p ∈ rest) with h2 | h2
      · exact Or.inr h2
      · exact Or.inl (by simp [h2])
    · rcases (by simpa [dictInsert, h0] using h : p = (k0, v0) ∨ p ∈ dictInsert rest k v)
        with h2 | h2
      · exact Or.inl (by simp [h2])
      · rcases ih h2 with h3 | h3
        · exact Or.inl (by simp [h3])
        · exact Or.inr h3

/-- Members of a rebuilt dict come from the source pairs. -/
theorem mem_pairsToDict {p : String × Json} {l : List (String × Json)}
    (h : p ∈ pairsToDict l) : p ∈ l := by
  have haux : ∀ (l2 : List (String × Json)) (acc : List (String × Json)),
      p ∈ l2.foldl (fun d kv => dictInsert d kv.1 kv.2) acc → p ∈ acc ∨ p ∈ l2 := by
    intro l2
    induction l2 with
    | nil => intro acc h2; exact Or.inl h2
    | cons kv rest ih =>
      intro acc h2
      rcases ih (dictInsert acc kv.1 kv.2) (by simpa [List.foldl_cons] using h2) with
        h3 | h3
      · rcases mem_dictInsert h3 with h4 | h4
        · exact Or.inl h4
        · exact Or.inr (by simp [h4])
      · exact Or.inr (by simp [h3])
  rcases haux l [] (by simpa [pairsToDict] using h) with h2 | h2
  · exact absurd h2 (List.not_mem_nil p)
  · exact h2

/-- Keys after an insertion: unchanged when present, appended when new. -/
theorem dictInsert_keys {α : Type} (d : List (String × α)) (k : String) (v : α) :
    (dictInsert d k v).map Prod.fst =
      if k ∈ d.map Prod.fst then d.map Prod.fst else d.map Prod.fst ++ [k] := by
  induction d with
  | nil => simp [dictInsert]
  | cons kv rest ih =>
    obtain ⟨k0, v0⟩ := kv
    by_cases h0 : k0 = k
    · subst h0
      simp [dictInsert]
    · by_cases hr : k ∈ rest.map Prod.fst
      · simp [dictInsert, h0, ih, hr, Ne.symm h0]
      · simp [dictInsert, h0, ih, hr, Ne.symm h0]

/-- Insertion preserves distinct keys. -/
theorem dictInsert_keys_nodup {α : Type} (d : List (String × α)) (k : String) (v : α)
    (h : (d.map Prod.fst).Nodup) : ((dictInsert d k v).map Prod.fst).Nodup := by
  rw [dictInsert_keys]
  by_cases hk : k ∈ d.map Prod.fst
  · simpa [hk] using h
  · simp only [hk, if_false, ite_false]
    rw [List.nodup_append]
    refine ⟨h, List.nodup_singleton k, ?_⟩
    intro a ha hb
    have hb2 : a = k := by simpa using hb
    exact hk (hb2 ▸ ha)

/-- A rebuilt dict always has distinct keys (it is a Python dict). -/
theorem pairsToDict_keys_nodup (l : List (String × Json)) :
    ((pairsToDict l).map Prod.fst).Nodup := by
  have haux : ∀ (l2 : List (String × Json)) (acc : List (String × Json)),
      (acc.map Prod.fst).Nodup →
      ((l2.foldl (fun d kv => dictInsert d kv.1 kv.2) acc).map Prod.fst).Nodup := by
    intro l2
    induction l2 with
    | nil => intro acc h; exact h
    | cons kv rest ih =>
      intro acc h
      simpa [List.foldl_cons] using ih (dictInsert acc kv.1 kv.2)
        (dictInsert_keys_nodup acc kv.1 kv.2 h)
  simpa [pairsToDict] using haux l [] (by simp)

/-- The executable key check agrees with `List.Nodup`. -/
theorem noDupKeysB_iff (l : List String) : noDupKeysB l = true ↔ l.Nodup := by
  induction l with
  | nil => simp [noDupKeysB]
  | cons k rest ih => simp [noDupKeysB, List.nodup_cons, ih, List.elem_iff]

/-- The executable item check is elementwise canonicality. -/
theorem canItemsB_iff (xs : List Json) :
    canItemsB xs = true ↔ ∀ x ∈ xs, canonicalB x = true := by
  induction xs with
  | nil => simp [canItemsB]
  | cons x rest ih => simp [canItemsB, ih]

/-- The executable member check is valuewise canonicality. -/
theorem canFieldsB_iff (kvs : List (String × Json)) :
    canFieldsB kvs = true ↔ ∀ kv ∈ kvs, canonicalB kv.2 = true := by
  induction kvs with
  | nil => simp [canFieldsB]
  | cons kv rest ih =>
    obtain ⟨k, v⟩ := kv
    simp [canFieldsB, ih]

/-- A printed item run starts like its first printed item. -/
theorem printItems_head (x : Json) (xs : List Json) :
    ∃ c t, printItems x xs = c :: t ∧ isWsChar c = false ∧ c ≠ ']' := by
  obtain ⟨c, t, hp, hws, hbr, _, _⟩ := printJson_head x
  cases xs with
  | nil => exact ⟨c, t, by simp [printItems, hp], hws, hbr⟩
  | cons y ys =>
    exact ⟨c, t ++ ',' :: ' ' :: printItems y ys, by simp [printItems, hp], hws, hbr⟩

/-- The array branch of the parser, when the element run does not open
with `]`. -/
theorem parseVal_arr_step (fuel : Nat) (cs1 : List Char) (c : Char) (t : List Char)
    (hskip : skipWs cs1 = c :: t) (hc : c ≠ ']') :
    parseVal (fuel + 1) ('[' :: cs1) =
      (parseItems fuel (c :: t)).map (fun p => (Json.arr p.1, p.2)) := by
  have step : parseVal (fuel + 1) ('[' :: cs1) =
      (match skipWs cs1 with
       | ']' :: rest => some (.arr [], rest)
       | cs2 => (parseItems fuel cs2).map (fun p => (Json.arr p.1, p.2))) := rfl
  rw [step, hskip]
  split
  · rename_i rest heq
    injection heq with h1 h2
    first
    | exact absurd h1 hc
    | exact absurd h1.symm hc
  · rfl

/-- The object branch of the parser, when the member run does not open
with `}`. -/
theorem parseVal_obj_step (fuel : Nat) (cs1 : List Char) (c : Char) (t : List Char)
    (hskip : skipWs cs1 = c :: t) (hc : c ≠ '}') :
    parseVal (fuel + 1) ('{' :: cs1) =
      (parseFields fuel (c :: t)).map (fun p => (Json.obj (pairsToDict p.1), p.2)) := by
  have step : parseVal (fuel + 1) ('{' :: cs1) =
      (match skipWs cs1 with
       | '}' :: rest => some (.obj [], rest)
       | cs2 => (parseFields fuel cs2).map (fun p => (Json.obj (pairsToDict p.1), p.2))) := rfl
  rw [step, hskip]
  split
  · rename_i rest heq
    injection heq with h1 h2
    first
    | exact absurd h1 hc
    | exact absurd h1.symm hc
  · rfl

/-- The number branch of the parser for an input headed by a character
that starts no other value kind. -/
theorem parseVal_num_step (fuel : Nat) (c : Char) (cs : List Char)
    (hn : c ≠ 'n') (ht : c ≠ 't') (hf : c ≠ 'f') (hq : c ≠ '"') (hk : c ≠ '[')
    (hb : c ≠ '{') (hm : c ≠ '-') :
    parseVal (fuel + 1) (c :: cs) =
      (readNum? (c :: cs)).map (fun p => (Json.num (p.1 : Int), p.2)) := by
  rw [parseVal]
  simp [hn, ht, hf, hq, hk, hb, hm]

mutual
/-- Round trip of one printed value: with canonical input, enough fuel and
a remainder that cannot extend a number, `parseVal` inverts `printJson`. -/
theorem rt_val : ∀ (v : Json) (fuel : Nat) (rest : List Char),
    canonicalB v = true → jfuel v ≤ fuel → numStopB rest = true →
    parseVal fuel (printJson v ++ rest) = some (v, rest)
  | .null, fuel, rest, _, hfuel, _ => by
    cases fuel with
    | zero => simp [jfuel] at hfuel
    | succ f =>
      rw [show printJson .null = ['n', 'u', 'l', 'l'] from by simp [printJson]]
      rfl
  | .bool true, fuel, rest, _, hfuel, _ => by
    cases fuel with
    | zero => simp [jfuel] at hfuel
    | succ f =>
      rw [show printJson (.bool true) = ['t', 'r', 'u', 'e'] from by simp [printJson]]
      rfl
  | .bool false, fuel, rest, _, hfuel, _ => by
    cases fuel with
    | zero => simp [jfuel] at hfuel
    | succ f =>
      rw [show printJson (.bool false) = ['f', 'a', 'l', 's', 'e'] from by simp [printJson]]
      rfl
  | .str s, fuel, rest, _, hfuel, _ => by
    cases fuel with
    | zero => simp [jfuel] at hfuel
    | succ f =>
      rw [show printJson (.str s) = '"' :: (s.data.flatMap escChar ++ ['"'])
        from by simp [printJson, strChars]]
      have step : parseVal (f + 1) ('"' :: (s.data.flatMap escChar ++ ['"'] ++ rest)) =
          (readStr [] (s.data.flatMap escChar ++ ['"'] ++ rest)).map
            (fun p => (Json.str p.1, p.2)) := rfl
      rw [List.cons_append, step, List.append_assoc, List.singleton_append,
        readStr_strChars]
      rfl
  | .num i, fuel, rest, _, hfuel, hrest => by
    cases fuel with
    | zero => simp [jfuel] at hfuel
    | succ f =>
      by_cases hi : i < 0
      · rw [show printJson (.num i) = '-' :: natChars i.natAbs
          from by simp [printJson, intChars, hi]]
        have step : parseVal (f + 1) ('-' :: (natChars i.natAbs ++ rest)) =
            (readNum? (natChars i.natAbs ++ rest)).map
              (fun p => (Json.num (-(p.1 : Int)), p.2)) := rfl
        rw [List.cons_append, step, readNum_natChars i.natAbs rest hrest]
        have hcast : -(i.natAbs : Int) = i := by omega
        show some (Json.num (-(i.natAbs : Int)), rest) = some (Json.num i, rest)
        rw [hcast]
      · obtain ⟨d, t, hd, hdlt⟩ := natChars_head i.natAbs
        obtain ⟨_, _, _, _, hn, ht, hf2, hq, hk, hb, hm⟩ := digitChar_not_special d hdlt
        rw [show printJson (.num i) = natChars i.natAbs
          from by simp [printJson, intChars, hi], hd, List.cons_append,
          parseVal_num_step f (digitChar d) (t ++ rest) hn ht hf2 hq hk hb hm,
          ← List.cons_append, ← hd, readNum_natChars i.natAbs rest hrest]
        have hcast : (i.natAbs : Int) = i := by omega
        show some (Json.num ((i.natAbs : Int)), rest) = some (Json.num i, rest)
        rw [hcast]
  | .arr [], fuel, rest, _, hfuel, _ => by
    cases fuel with
    | zero => simp [jfuel, jfuelItems] at hfuel
    | succ f =>
      rw [show printJson (.arr []) = ['[', ']'] from by simp [printJson]]
      rfl
  | .arr (x :: xs), fuel, rest, hcan, hfuel, hrest => by
    have hitems : canItemsB (x :: xs) = true := by simpa [canonicalB] using hcan
    cases fuel with
    | zero =>
      rw [show jfuel (.arr (x :: xs)) = 1 + jfuelItems (x :: xs) from by simp [jfuel]]
        at hfuel
      omega
    | succ f =>
      have hfi : jfuelItems (x :: xs) ≤ f := by
        rw [show jfuel (.arr (x :: xs)) = 1 + jfuelItems (x :: xs) from by simp [jfuel]]
          at hfuel
        omega
      obtain ⟨c, t, hpi, hws, hbr⟩ := printItems_head x xs
      have harg : printJson (.arr (x :: xs)) ++ rest =
          '[' :: (printItems x xs ++ ']' :: rest) := by
        rw [show printJson (.arr (x :: xs)) = '[' :: (printItems x xs ++ [']'])
          from by simp [printJson]]
        simp
      have hskip : skipWs (printItems x xs ++ ']' :: rest) =
          c :: (t ++ ']' :: rest) := by
        rw [hpi, List.cons_append, skipWs_not_ws _ hws]
      rw [harg, parseVal_arr_step f _ c (t ++ ']' :: rest) hskip hbr,
        ← List.cons_append, ← hpi, rt_items x xs f rest hitems hfi hrest]
      rfl
  | .obj [], fuel, rest, _, hfuel, _ => by
    cases fuel with
    | zero => simp [jfuel, jfuelFields] at hfuel
    | succ f =>
      rw [show printJson (.obj []) = ['{', '}'] from by simp [printJson]]
      rfl
  | .obj ((k, v) :: kvs), fuel, rest, hcan, hfuel, hrest => by
    have hsplit : noDupKeysB (((k, v) :: kvs).map (fun p => p.1)) = true ∧
        canFieldsB ((k, v) :: kvs) = true := by
      have := hcan
      rw [show canonicalB (.obj ((k, v) :: kvs)) =
          (noDupKeysB (((k, v) :: kvs).map (fun p => p.1)) && canFieldsB ((k, v) :: kvs))
        from by simp [canonicalB]] at this
      simp only [Bool.and_eq_true] at this
      exact this
    cases fuel with
    | zero =>
      rw [show jfuel (.obj ((k, v) :: kvs)) = 1 + jfuelFields ((k, v) :: kvs)
        from by simp [jfuel]] at hfuel
      omega
    | succ f =>
      have hff : jfuelFields ((k, v) :: kvs) ≤ f := by
        rw [show jfuel (.obj ((k, v) :: kvs)) = 1 + jfuelFields ((k, v) :: kvs)
          from by simp [jfuel]] at hfuel
        omega
      have hpf : ∃ t, printFields (k, v) kvs = '"' :: t := by
        cases kvs with
        | nil =>
          exact ⟨k.data.flatMap escChar ++ ['"'] ++ ':' :: ' ' :: printJson v,
            by simp [printFields, strChars]⟩
        | cons f1 fs =>
          exact ⟨k.data.flatMap escChar ++ ['"'] ++ ':' :: ' ' :: printJson v ++
            ',' :: ' ' :: printFields f1 fs, by simp [printFields, strChars]⟩
      obtain ⟨t, hpf⟩ := hpf
      have harg : printJson (.obj ((k, v) :: kvs)) ++ rest =
          '{' :: (printFields (k, v) kvs ++ '}' :: rest) := by
        rw [show printJson (.obj ((k, v) :: kvs)) =
            '{' :: (printFields (k, v) kvs ++ ['}']) from by simp [printJson]]
        simp
      have hskip : skipWs (printFields (k, v) kvs ++ '}' :: rest) =
          '"' :: (t ++ '}' :: rest) := by
        rw [hpf, List.cons_append, skipWs_not_ws _ (by decide)]
      rw [harg, parseVal_obj_step f _ '"' (t ++ '}' :: rest) hskip (by decide),
        ← List.cons_append, ← hpf, rt_fields (k, v) kvs f rest hsplit.2 hff hrest]
      have hnodup : (((k, v) :: kvs).map Prod.fst).Nodup := by
        have := (noDupKeysB_iff (((k, v) :: kvs).map (fun p => p.1))).mp hsplit.1
        simpa using this
      simp [pairsToDict_self _ hnodup]
termination_by v _ _ _ _ _ => sizeOf v
decreasing_by all_goals simp_wf <;> omega

/-- Round trip of a printed nonempty item run terminated by `]`. -/
theorem rt_items : ∀ (x : Json) (xs : List Json) (fuel : Nat) (rest : List Char),
    canItemsB (x :: xs) = true → jfuelItems (x :: xs) ≤ fuel → numStopB rest = true →
    parseItems fuel (printItems x xs ++ ']' :: rest) = some (x :: xs, rest)
  | x, [], fuel, rest, hcan, hfuel, hrest => by
    have hx : canonicalB x = true := by
      have := hcan
      rw [show canItemsB [x] = (canonicalB x && canItemsB []) from by simp [canItemsB]]
        at this
      simp only [Bool.and_eq_true] at this
      exact this.1
    cases fuel with
    | zero =>
      rw [show jfuelItems [x] = 1 + jfuel x + jfuelItems [] from by simp [jfuelItems]]
        at hfuel
      omega
    | succ f =>
      have hfx : jfuel x ≤ f := by
        rw [show jfuelItems [x] = 1 + jfuel x + jfuelItems []
          from by simp [jfuelItems]] at hfuel
        simp [jfuelItems] at hfuel
        omega
      have step : parseItems (f + 1) (printItems x [] ++ ']' :: rest) =
          (match parseVal f (printItems x [] ++ ']' :: rest) with
           | none => none
           | some (v, r) =>
             match skipWs r with
             | ',' :: r2 => (parseItems f (skipWs r2)).map (fun p => (v :: p.1, p.2))
             | ']' :: r2 => some ([v], r2)
             | _ => none) := rfl
      rw [step, show printItems x [] = printJson x from by simp [printItems],
        rt_val x f (']' :: rest) hx hfx (by rfl)]
      rfl
  | x, y :: ys, fuel, rest, hcan, hfuel, hrest => by
    have hx : canonicalB x = true := by
      have := hcan
      rw [show canItemsB (x :: y :: ys) = (canonicalB x && canItemsB (y :: ys))
        from by simp [canItemsB]] at this
      simp only [Bool.and_eq_true] at this
      exact this.1
    have htail : canItemsB (y :: ys) = true := by
      have := hcan
      rw [show canItemsB (x :: y :: ys) = (canonicalB x && canItemsB (y :: ys))
        from by simp [canItemsB]] at this
      simp only [Bool.and_eq_true] at this
      exact this.2
    cases fuel with
    | zero =>
      rw [show jfuelItems (x :: y :: ys) = 1 + jfuel x + jfuelItems (y :: ys)
        from by simp [jfuelItems]] at hfuel
      omega
    | succ f =>
      have hfx : jfuel x ≤ f := by
        rw [show jfuelItems (x :: y :: ys) = 1 + jfuel x + jfuelItems (y :: ys)
          from by simp [jfuelItems]] at hfuel
        omega
      have hfy : jfuelItems (y :: ys) ≤ f := by
        rw [show jfuelItems (x :: y :: ys) = 1 + jfuel x + jfuelItems (y :: ys)
          from by simp [jfuelItems]] at hfuel
        omega
      have harg : printItems x (y :: ys) ++ ']' :: rest =
          printJson x ++ (',' :: ' ' :: (printItems y ys ++ ']' :: rest)) := by
        rw [show printItems x (y :: ys) = printJson x ++ ',' :: ' ' :: printItems y ys
          from by simp [printItems]]
        simp
      have step : parseItems (f + 1) (printItems x (y :: ys) ++ ']' :: rest) =
          (match parseVal f (printItems x (y :: ys) ++ ']' :: rest) with
           | none => none
           | some (v, r) =>
             match skipWs r with
             | ',' :: r2 => (parseItems f (skipWs r2)).map (fun p => (v :: p.1, p.2))
             | ']' :: r2 => some ([v], r2)
             | _ => none) := rfl
      rw [step, harg, rt_val x f (',' :: ' ' :: (printItems y ys ++ ']' :: rest)) hx hfx
        (by rfl)]
      have hsp : skipWs (' ' :: (printItems y ys ++ ']' :: rest)) =
          printItems y ys ++ ']' :: rest := by
        rw [show skipWs (' ' :: (printItems y ys ++ ']' :: rest)) =
            skipWs (printItems y ys ++ ']' :: rest) from by simp [skipWs, isWsChar]]
        obtain ⟨c, t, hpi, hws, _⟩ := printItems_head y ys
        rw [hpi, List.cons_append, skipWs_not_ws _ hws]
      show (parseItems f (skipWs (' ' :: (printItems y ys ++ ']' :: rest)))).map
          (fun p => (x :: p.1, p.2)) = some (x :: y :: ys, rest)
      rw [hsp, rt_items y ys f rest htail hfy hrest]
      rfl
termination_by x xs _ _ _ _ _ => sizeOf x + sizeOf xs
decreasing_by all_goals simp_wf <;> omega

/-- Round trip of a printed nonempty member run terminated by `}`. -/
theorem rt_fields : ∀ (kv : String × Json) (kvs : List (String × Json)) (fuel : Nat)
    (rest : List Char),
    canFieldsB (kv :: kvs) = true → jfuelFields (kv :: kvs) ≤ fuel → numStopB rest = true →
    parseFields fuel (printFields kv kvs ++ '}' :: rest) = some (kv :: kvs, rest)
  | (k, v), [], fuel, rest, hcan, hfuel, hrest => by
    have hv : canonicalB v = true := by
      have := hcan
      rw [show canFieldsB [(k, v)] = (canonicalB v && canFieldsB [])
        from by simp [canFieldsB]] at this
      simp only [Bool.and_eq_true] at this
      exact this.1
    cases fuel with
    | zero =>
      rw [show jfuelFields [(k, v)] = 1 + jfuel v + jfuelFields []
        from by simp [jfuelFields]] at hfuel
      omega
    | succ f =>
      have hfv : jfuel v ≤ f := by
        rw [show jfuelFields [(k, v)] = 1 + jfuel v + jfuelFields []
          from by simp [jfuelFields]] at hfuel
        simp [jfuelFields] at hfuel
        omega
      have harg : printFields (k, v) [] ++ '}' :: rest =
          '"' :: (k.data.flatMap escChar ++ '"' :: (':' :: ' ' ::
            (printJson v ++ '}' :: rest))) := by
        rw [show printFields (k, v) [] = strChars k ++ ':' :: ' ' :: printJson v
          from by simp [printFields]]
        simp [strChars]
      have step : ∀ cs1, parseFields (f + 1) ('"' :: cs1) =
          (match readStr [] cs1 with
           | none => none
           | some (kx, r) =>
             match skipWs r with
             | ':' :: r2 =>
               match parseVal f (skipWs r2) with
               | none => none
               | some (vx, r3) =>
                 match skipWs r3 with
                 | ',' :: r4 => (parseFields f (skipWs r4)).map
                     (fun p => ((kx, vx) :: p.1, p.2))
                 | '}' :: r4 => some ([(kx, vx)], r4)
                 | _ => none
             | _ => none) := fun cs1 => rfl
      rw [harg, step, readStr_strChars k (':' :: ' ' :: (printJson v ++ '}' :: rest))]
      show (match skipWs (':' :: ' ' :: (printJson v ++ '}' :: rest)) with
           | ':' :: r2 =>
             match parseVal f (skipWs r2) with
             | none => none
             | some (vx, r3) =>
               match skipWs r3 with
               | ',' :: r4 => (parseFields f (skipWs r4)).map
                   (fun p => ((k, vx) :: p.1, p.2))
               | '}' :: r4 => some ([(k, vx)], r4)
               | _ => none
           | _ => none) = some ([(k, v)], rest)
      rw [show skipWs (':' :: ' ' :: (printJson v ++ '}' :: rest)) =
          ':' :: ' ' :: (printJson v ++ '}' :: rest) from by simp [skipWs, isWsChar]]
      show (match parseVal f (skipWs (' ' :: (printJson v ++ '}' :: rest))) with
           | none => none
           | some (vx, r3) =>
             match skipWs r3 with
             | ',' :: r4 => (parseFields f (skipWs r4)).map
                 (fun p => ((k, vx) :: p.1, p.2))
             | '}' :: r4 => some ([(k, vx)], r4)
             | _ => none) = some ([(k, v)], rest)
      rw [show skipWs (' ' :: (printJson v ++ '}' :: rest)) =
          skipWs (printJson v ++ '}' :: rest) from by simp [skipWs, isWsChar],
        skipWs_printJson, rt_val v f ('}' :: rest) hv hfv (by rfl)]
      rfl
  | (k, v), f1 :: fs, fuel, rest, hcan, hfuel, hrest => by
    have hv : canonicalB v = true := by
      have := hcan
      rw [show canFieldsB ((k, v) :: f1 :: fs) = (canonicalB v && canFieldsB (f1 :: fs))
        from by simp [canFieldsB]] at this
      simp only [Bool.and_eq_true] at this
      exact this.1
    have htail : canFieldsB (f1 :: fs) = true := by
      have := hcan
      rw [show canFieldsB ((k, v) :: f1 :: fs) = (canonicalB v && canFieldsB (f1 :: fs))
        from by simp [canFieldsB]] at this
      simp only [Bool.and_eq_true] at this
      exact this.2
    cases fuel with
    | zero =>
      rw [show jfuelFields ((k, v) :: f1 :: fs) = 1 + jfuel v + jfuelFields (f1 :: fs)
        from by simp [jfuelFields]] at hfuel
      omega
    | succ f =>
      have hfv : jfuel v ≤ f := by
        rw [show jfuelFields ((k, v) :: f1 :: fs) = 1 + jfuel v + jfuelFields (f1 :: fs)
          from by simp [jfuelFields]] at hfuel
        omega
      have hff : jfuelFields (f1 :: fs) ≤ f := by
        rw [show jfuelFields ((k, v) :: f1 :: fs) = 1 + jfuel v + jfuelFields (f1 :: fs)
          from by simp [jfuelFields]] at hfuel
        omega
      have harg : printFields (k, v) (f1 :: fs) ++ '}' :: rest =
          '"' :: (k.data.flatMap escChar ++ '"' :: (':' :: ' ' ::
            (printJson v ++ ',' :: ' ' :: (printFields f1 fs ++ '}' :: rest)))) := by
        rw [show printFields (k, v) (f1 :: fs) =
            (strChars k ++ ':' :: ' ' :: printJson v) ++ ',' :: ' ' :: printFields f1 fs
          from by simp [printFields]]
        simp [strChars]
      have step : ∀ cs1, parseFields (f + 1) ('"' :: cs1) =
          (match readStr [] cs1 with
           | none => none
           | some (kx, r) =>
             match skipWs r with
             | ':' :: r2 =>
               match parseVal f (skipWs r2) with
               | none => none
               | some (vx, r3) =>
                 match skipWs r3 with
                 | ',' :: r4 => (parseFields f (skipWs r4)).map
                     (fun p => ((kx, vx) :: p.1, p.2))
                 | '}' :: r4 => some ([(kx, vx)], r4)
                 | _ => none
             | _ => none) := fun cs1 => rfl
      rw [harg, step, readStr_strChars k (':' :: ' ' ::
        (printJson v ++ ',' :: ' ' :: (printFields f1 fs ++ '}' :: rest)))]
      show (match skipWs (':' :: ' ' :: (printJson v ++ ',' :: ' ' ::
            (printFields f1 fs ++ '}' :: rest))) with
           | ':' :: r2 =>
             match parseVal f (skipWs r2) with
             | none => none
             | some (vx, r3) =>
               match skipWs r3 with
               | ',' :: r4 => (parseFields f (skipWs r4)).map
                   (fun p => ((k, vx) :: p.1, p.2))
               | '}' :: r4 => some ([(k, vx)], r4)
               | _ => none
           | _ => none) = some ((k, v) :: f1 :: fs, rest)
      rw [show skipWs (':' :: ' ' :: (printJson v ++ ',' :: ' ' ::
          (printFields f1 fs ++ '}' :: rest))) =
          ':' :: ' ' :: (printJson v ++ ',' :: ' ' ::
          (printFields f1 fs ++ '}' :: rest)) from by simp [skipWs, isWsChar]]
      show (match parseVal f (skipWs (' ' :: (printJson v ++ ',' :: ' ' ::
            (printFields f1 fs ++ '}' :: rest)))) with
           | none => none
           | some (vx, r3) =>
             match skipWs r3 with
             | ',' :: r4 => (parseFields f (skipWs r4)).map
                 (fun p => ((k, vx) :: p.1, p.2))
             | '}' :: r4 => some ([(k, vx)], r4)
             | _ => none) = some ((k, v) :: f1 :: fs, rest)
      rw [show skipWs (' ' :: (printJson v ++ ',' :: ' ' ::
          (printFields f1 fs ++ '}' :: rest))) =
          skipWs (printJson v ++ ',' :: ' ' :: (printFields f1 fs ++ '}' :: rest))
        from by simp [skipWs, isWsChar],
        skipWs_printJson,
        rt_val v f (',' :: ' ' :: (printFields f1 fs ++ '}' :: rest)) hv hfv (by rfl)]
      have hsp : skipWs (' ' :: (printFields f1 fs ++ '}' :: rest)) =
          printFields f1 fs ++ '}' :: rest := by
        rw [show skipWs (' ' :: (printFields f1 fs ++ '}' :: rest)) =
            skipWs (printFields f1 fs ++ '}' :: rest) from by simp [skipWs, isWsChar]]
        obtain ⟨k1, v1⟩ := f1
        have hpf : ∃ t, printFields (k1, v1) fs = '"' :: t := by
          cases fs with
          | nil =>
            exact ⟨k1.data.flatMap escChar ++ ['"'] ++ ':' :: ' ' :: printJson v1,
              by simp [printFields, strChars]⟩
          | cons f2 fs2 =>
            exact ⟨k1.data.flatMap escChar ++ ['"'] ++ ':' :: ' ' :: printJson v1 ++
              ',' :: ' ' :: printFields f2 fs2, by simp [printFields, strChars]⟩
        obtain ⟨t, hpf⟩ := hpf
        rw [hpf, List.cons_append, skipWs_not_ws _ (by decide)]
      show (match skipWs (',' :: ' ' :: (printFields f1 fs ++ '}' :: rest)) with
           | ',' :: r4 => (parseFields f (skipWs r4)).map
               (fun p => ((k, v) :: p.1, p.2))
           | '}' :: r4 => some ([(k, v)], r4)
           | _ => none) = some ((k, v) :: f1 :: fs, rest)
      rw [show skipWs (',' :: ' ' :: (printFields f1 fs ++ '}' :: rest)) =
          ',' :: ' ' :: (printFields f1 fs ++ '}' :: rest)
        from by simp [skipWs, isWsChar]]
      show (parseFields f (skipWs (' ' :: (printFields f1 fs ++ '}' :: rest)))).map
          (fun p => ((k, v) :: p.1, p.2)) = some ((k, v) :: f1 :: fs, rest)
      rw [hsp, rt_fields f1 fs f rest htail hff hrest]
      rfl
termination_by kv kvs _ _ _ _ _ => sizeOf kv + sizeOf kvs
decreasing_by all_goals simp_wf <;> omega
end

/-- A successful `null` literal parse yields `null`. -/
theorem litNull?_shape {cs : List Char} {v : Json} {r : List Char}
    (h : litNull? cs = some (v, r)) : v = .null := by
  unfold litNull? at h
  split at h
  · simp only [Option.some.injEq, Prod.mk.injEq] at h
    exact h.1.symm
  · exact absurd h (by simp)

/-- A successful `true` literal parse yields `true`. -/
theorem litTrue?_shape {cs : List Char} {v : Json} {r : List Char}
    (h : litTrue? cs = some (v, r)) : v = .bool true := by
  unfold litTrue? at h
  split at h
  · simp only [Option.some.injEq, Prod.mk.injEq] at h
    exact h.1.symm
  · exact absurd h (by simp)

/-- A successful `false` literal parse yields `false`. -/
theorem litFalse?_shape {cs : List Char} {v : Json} {r : List Char}
    (h : litFalse? cs = some (v, r)) : v = .bool false := by
  unfold litFalse? at h
  split at h
  · simp only [Option.some.injEq, Prod.mk.injEq] at h
    exact h.1.symm
  · exact absurd h (by simp)

/-- Everything the parser produces is canonical: every object carries
pairwise distinct keys, because member lists pass through `dict(pairs)`. -/
theorem parse_canonical : ∀ fuel : Nat,
    (∀ cs v rest, parseVal fuel cs = some (v, rest) → canonicalB v = true) ∧
    (∀ cs xs rest, parseItems fuel cs = some (xs, rest) →
      ∀ x ∈ xs, canonicalB x = true) ∧
    (∀ cs kvs rest, parseFields fuel cs = some (kvs, rest) →
      ∀ kv ∈ kvs, canonicalB kv.2 = true) := by
  intro fuel
  induction fuel with
  | zero =>
    refine ⟨?_, ?_, ?_⟩
    · intro cs v rest h; simp [parseVal] at h
    · intro cs xs rest h; simp [parseItems] at h
    · intro cs kvs rest h; simp [parseFields] at h
  | succ f ih =>
    obtain ⟨ihv, ihi, ihf⟩ := ih
    refine ⟨?_, ?_, ?_⟩
    · intro cs v rest h
      cases cs with
      | nil => simp [parseVal] at h
      | cons c cs2 =>
        rw [parseVal] at h
        split_ifs at h with h1 h2 h3 h4 h5 h6 h7
        · rw [litNull?_shape h]
          simp [canonicalB]
        · rw [litTrue?_shape h]
          simp [canonicalB]
        · rw [litFalse?_shape h]
          simp [canonicalB]
        · obtain ⟨⟨s, r⟩, _, heq⟩ := Option.map_eq_some'.mp h
          simp only [Prod.mk.injEq] at heq
          rw [← heq.1]
          simp [canonicalB]
        · split at h
          · simp only [Option.some.injEq, Prod.mk.injEq] at h
            rw [← h.1]
            simp [canonicalB, canItemsB]
          · obtain ⟨⟨xs, r⟩, hp, heq⟩ := Option.map_eq_some'.mp h
            simp only [Prod.mk.injEq] at heq
            rw [← heq.1]
            rw [show canonicalB (.arr xs) = canItemsB xs from by simp [canonicalB]]
            exact (canItemsB_iff xs).mpr (ihi _ xs r hp)
        · split at h
          · simp only [Option.some.injEq, Prod.mk.injEq] at h
            rw [← h.1]
            simp [canonicalB, canFieldsB, noDupKeysB, pairsToDict]
          · obtain ⟨⟨kvs, r⟩, hp, heq⟩ := Option.map_eq_some'.mp h
            simp only [Prod.mk.injEq] at heq
            rw [← heq.1]
            rw [show canonicalB (.obj (pairsToDict kvs)) =
                (noDupKeysB ((pairsToDict kvs).map (fun p => p.1)) &&
                  canFieldsB (pairsToDict kvs)) from by simp [canonicalB]]
            rw [Bool.and_eq_true]
            refine ⟨?_, ?_⟩
            · exact (noDupKeysB_iff _).mpr (by simpa using pairsToDict_keys_nodup kvs)
            · exact (canFieldsB_iff _).mpr
                (fun kv hkv => ihf _ kvs r hp kv (mem_pairsToDict hkv))
        · obtain ⟨⟨n, r⟩, _, heq⟩ := Option.map_eq_some'.mp h
          simp only [Prod.mk.injEq] at heq
          rw [← heq.1]
          simp [canonicalB]
        · obtain ⟨⟨n, r⟩, _, heq⟩ := Option.map_eq_some'.mp h
          simp only [Prod.mk.injEq] at heq
          rw [← heq.1]
          simp [canonicalB]
    · intro cs xs rest h
      rw [parseItems] at h
      split at h
      · exact absurd h (by simp)
      · rename_i v r hv
        split at h
        · obtain ⟨⟨xs2, r2⟩, hp, heq⟩ := Option.map_eq_some'.mp h
          simp only [Prod.mk.injEq] at heq
          rw [← heq.1]
          intro x hx
          rcases List.mem_cons.mp hx with hx | hx
          · exact hx ▸ ihv _ v r hv
          · exact ihi _ xs2 r2 hp x hx
        · simp only [Option.some.injEq, Prod.mk.injEq] at h
          rw [← h.1]
          intro x hx
          rcases List.mem_cons.mp hx with hx | hx
          · exact hx ▸ ihv _ v r hv
          · exact absurd hx (List.not_mem_nil x)
        · exact absurd h (by simp)
    · intro cs kvs rest h
      rw [parseFields.eq_def] at h
      split at h
      · exact absurd h (by simp)
      · split at h
        · split at h
          · exact absurd h (by simp)
          · rename_i k r hk
            rename ℕ => fuel2
            rename f + 1 = _ => heq2
            have hfe : fuel2 = f := by omega
            subst hfe
            split at h
            · rename_i r2
              split at h
              · exact absurd h (by simp)
              · rename_i v r3 hv
                split at h
                · obtain ⟨⟨kvs2, r4⟩, hp, heq⟩ := Option.map_eq_some'.mp h
                  simp only [Prod.mk.injEq] at heq
                  rw [← heq.1]
                  intro kv hkv
                  rcases List.mem_cons.mp hkv with hkv | hkv
                  · rw [hkv]
                    exact ihv _ v r3 hv
                  · exact ihf _ kvs2 r4 hp kv hkv
                · simp only [Option.some.injEq, Prod.mk.injEq] at h
                  rw [← h.1]
                  intro kv hkv
                  rcases List.mem_cons.mp hkv with hkv | hkv
                  · rw [hkv]
                    exact ihv _ v r3 hv
                  · exact absurd hkv (List.not_mem_nil kv)
                · exact absurd h (by simp)
            · exact absurd h (by simp)
        · exact absurd h (by simp)

/-- Whatever `json.loads` accepts is canonical. -/
theorem loads_canonical (raw : String) (v : Json) (h : loads raw = some v) :
    canonicalB v = true := by
  unfold loads at h
  split at h
  · rename_i v0 rest hp
    split at h
    · exact (Option.some.inj h) ▸ (parse_canonical _).1 _ v0 rest hp
    · exact absurd h (by simp)
  · exact absurd h (by simp)

/-- The encode/decode round trip on canonical values: `json.loads` inverts
`json.dumps`. -/
theorem loads_dumps (v : Json) (hcan : canonicalB v = true) : loads (dumps v) = some v := by
  have hfuel : jfuel v ≤ (dumps v).length + 1 := by
    have h1 := jfuel_le_print v
    have hlen : (dumps v).length = (printJson v).length := rfl
    omega
  have hrt := rt_val v ((dumps v).length + 1) [] hcan hfuel (by rfl)
  rw [List.append_nil] at hrt
  have hsk : skipWs (dumps v).data = printJson v := by
    have := skipWs_printJson v []
    simpa using this
  unfold loads
  rw [hsk, hrt]
  rfl

/-- C9: a tool result whose first text content block is valid JSON text is
parsed by the invoker into the structured value, and the re-serialization
the engine feeds back to the model decodes to that same value — a
lossless round trip. -/
theorem toolResult_roundtrip (envelope : Json) (raw : String) (v : Json)
    (hpretty : prettyJsonFromMcpResult envelope = .str raw)
    (hparse : loads raw = some v) :
    parseTextBlock envelope = v ∧ loads (dumps v) = some v := by
  constructor
  · unfold parseTextBlock
    rw [hpretty]
    show (match loads raw with | some v2 => v2 | none => .str raw) = v
    rw [hparse]
  · exact loads_dumps v (loads_canonical raw v hparse)

/-- A concrete `tools/call` envelope whose text block is JSON. -/
def c9Envelope : Json :=
  .obj [("result", .obj [("content", .arr [.obj [("type", .str "text"),
    ("text", .str "[1, true, \"ok\"]")]])])]

/-- Witness for C9 at a concrete envelope and value. -/
theorem toolResult_roundtrip_witness :
    parseTextBlock c9Envelope = Json.arr [.num 1, .bool true, .str "ok"] ∧
    loads (dumps (Json.arr [.num 1, .bool true, .str "ok"])) =
      some (Json.arr [.num 1, .bool true, .str "ok"]) :=
  toolResult_roundtrip c9Envelope "[1, true, \"ok\"]"
    (Json.arr [.num 1, .bool true, .str "ok"]) rfl rfl
